import Mathlib

/-!
Verification of the geometry and collision-detection core of the
boundary-obstacle-detector repository (src/geometry.py and src/app.py).

The Python code computes with IEEE floats; the embedding models the same
arithmetic over ℚ, reading each float literal (1e-9, 1e-6, 1e-12) as the
exact rational it denotes in the source text.  The only non-rational
operation in the source is `math.hypot`, which is always used in a
comparison `hypot dx dy <= eps`; since `hypot dx dy = sqrt (dx^2 + dy^2)`
is nonnegative, that comparison is exactly equivalent to
`0 ≤ eps ∧ dx^2 + dy^2 ≤ eps^2`, which is how it is embedded here.
-/

namespace BOD

abbrev Point : Type := ℚ × ℚ

abbrev Segment : Type := Point × Point

def eps9 : ℚ := 1 / 1000000000

def eps6 : ℚ := 1 / 1000000

def eps12 : ℚ := 1 / 1000000000000

/-- `_cross(o, a, b)` from src/geometry.py. -/
def cross (o a b : Point) : ℚ :=
  (a.1 - o.1) * (b.2 - o.2) - (a.2 - o.2) * (b.1 - o.1)

/-- Lexicographic order on points: Python tuple comparison `<`. -/
def lexLt (p q : Point) : Prop :=
  p.1 < q.1 ∨ (p.1 = q.1 ∧ p.2 < q.2)

instance (p q : Point) : Decidable (lexLt p q) :=
  inferInstanceAs (Decidable (p.1 < q.1 ∨ (p.1 = q.1 ∧ p.2 < q.2)))

/-- Insert a point into a strictly lex-sorted duplicate-free list. -/
def insertPt (p : Point) : List Point → List Point
  | [] => [p]
  | q :: rest =>
    if lexLt p q then p :: q :: rest
    else if p = q then q :: rest
    else q :: insertPt p rest

/-- `sorted(set(points))` from src/geometry.py: the strictly increasing
lexicographic enumeration of the distinct input points. -/
def sortedDedup (l : List Point) : List Point :=
  l.foldr insertPt []

/-- The inner `while` loop of the monotone-chain construction: the chain is
stored reversed (head of the list = most recently appended point); pop while
the last two chain points and the candidate make a non-left turn. -/
def popWhile (p : Point) : List Point → List Point
  | [] => []
  | [a] => [a]
  | b :: a :: rest =>
    if cross a b p ≤ 0 then popWhile p (a :: rest) else b :: a :: rest

/-- One iteration of the chain-building `for` loop of `convex_hull`. -/
def chainStep (ch : List Point) (p : Point) : List Point :=
  p :: popWhile p ch

/-- Build a monotone chain (stored reversed) over the given point list. -/
def buildRev (pts : List Point) : List Point :=
  pts.foldl chainStep []

/-- `convex_hull(points)` from src/geometry.py (Andrew's monotone chain):
`lower[:-1] + upper[:-1]` where the lower chain scans the sorted deduplicated
points left to right and the upper chain scans them right to left. -/
def convex_hull (points : List Point) : List Point :=
  let pts := sortedDedup points
  if pts.length ≤ 1 then pts
  else
    (buildRev pts).reverse.dropLast ++ (buildRev pts.reverse).reverse.dropLast

/-- Point negation; the upper chain of `convex_hull` is the image under
this map of the lower chain of the negated reversed input. -/
def negP (p : Point) : Point :=
  (-p.1, -p.2)

/-- Every consecutive triple of the list is a strict left turn. -/
def LeftTurns : List Point → Prop
  | a :: b :: c :: t => 0 < cross a b c ∧ LeftTurns (b :: c :: t)
  | _ => True

/-- `q` is weakly to the left of every consecutive directed edge. -/
def Covers : List Point → Point → Prop
  | a :: b :: t, q => 0 ≤ cross a b q ∧ Covers (b :: t) q
  | _, _ => True

/-- `LeftTurns` for a chain stored in reverse (head = last chain point). -/
def RTurns : List Point → Prop
  | c :: b :: a :: t => 0 < cross a b c ∧ RTurns (b :: a :: t)
  | _ => True

/-- `Covers` for a chain stored in reverse. -/
def RCovers : List Point → Point → Prop
  | b :: a :: t, q => 0 ≤ cross a b q ∧ RCovers (a :: t) q
  | _, _ => True

/-- The consecutive edges of a vertex list. -/
def linEdges : List Point → List Segment
  | a :: b :: t => (a, b) :: linEdges (b :: t)
  | _ => []

/-- The consecutive triples of a vertex list. -/
def linTriples : List Point → List (Point × Point × Point)
  | a :: b :: c :: t => (a, b, c) :: linTriples (b :: c :: t)
  | _ => []

/-- The cyclically consecutive triples of a polygon vertex list. -/
def cyclicTriples (l : List Point) : List (Point × Point × Point) :=
  linTriples (l ++ l.take 2)

/-- `_on_segment(a, b, c)` from src/geometry.py: the bounding-box test,
inflated by 1e-9 on both axes. -/
def on_segment (a b c : Point) : Bool :=
  decide (min a.1 b.1 - eps9 ≤ c.1 ∧ c.1 ≤ max a.1 b.1 + eps9 ∧
          min a.2 b.2 - eps9 ≤ c.2 ∧ c.2 ≤ max a.2 b.2 + eps9)

/-- `_orientation(a, b, c)` from src/geometry.py. -/
def orientation (a b c : Point) : ℚ :=
  cross a b c

/-- `segments_intersect(s1, s2)` from src/geometry.py. -/
def segments_intersect (s1 s2 : Segment) : Bool :=
  let p1 := s1.1
  let p2 := s1.2
  let q1 := s2.1
  let q2 := s2.2
  let o1 := orientation p1 p2 q1
  let o2 := orientation p1 p2 q2
  let o3 := orientation q1 q2 p1
  let o4 := orientation q1 q2 p2
  decide (o1 * o2 < 0 ∧ o3 * o4 < 0) ||
  (decide (|o1| < eps9) && on_segment p1 p2 q1) ||
  (decide (|o2| < eps9) && on_segment p1 p2 q2) ||
  (decide (|o3| < eps9) && on_segment q1 q2 p1) ||
  (decide (|o4| < eps9) && on_segment q1 q2 p2)

/-- `_det(a, b)` from src/geometry.py. -/
def det (a b : Point) : ℚ :=
  a.1 * b.2 - a.2 * b.1

/-- `intersection_point(s1, s2)` from src/geometry.py. -/
def intersection_point (s1 s2 : Segment) : Option Point :=
  if segments_intersect s1 s2 then
    let p1 := s1.1
    let p2 := s1.2
    let q1 := s2.1
    let q2 := s2.2
    let xdiff : Point := (p1.1 - p2.1, q1.1 - q2.1)
    let ydiff : Point := (p1.2 - p2.2, q1.2 - q2.2)
    let div := det xdiff ydiff
    if |div| < eps9 then
      ([p1, p2, q1, q2].filter
        (fun r => on_segment p1 p2 r && on_segment q1 q2 r)).head?
    else
      let d : Point := (det p1 p2, det q1 q2)
      let x := det d xdiff / div
      let y := det d ydiff / div
      let pt : Point := (x, y)
      if on_segment p1 p2 pt && on_segment q1 q2 pt then some pt else none
  else none

/-- The C5 claim's description of `intersection_point`, written from the
spec's words: `None` when `segmentsIntersect` is false; in the
parallel/collinear branch (determinant magnitude below 1e-9) the first
endpoint among `p1, p2, q1, q2` that lies within BOTH segments' bounding
boxes AND passes the collinearity test (orientation of magnitude below
1e-9 with respect to each segment), or `None` if none qualifies; otherwise
the unique line-line intersection point provided it lies within both
segments' inflated bounding boxes, else `None`.  It differs from the source
only by the collinearity conjunct in the parallel branch. -/
def intersection_point_spec (s1 s2 : Segment) : Option Point :=
  if segments_intersect s1 s2 then
    let p1 := s1.1
    let p2 := s1.2
    let q1 := s2.1
    let q2 := s2.2
    let xdiff : Point := (p1.1 - p2.1, q1.1 - q2.1)
    let ydiff : Point := (p1.2 - p2.2, q1.2 - q2.2)
    let div := det xdiff ydiff
    if |div| < eps9 then
      ([p1, p2, q1, q2].filter
        (fun r => on_segment p1 p2 r && on_segment q1 q2 r &&
          decide (|orientation p1 p2 r| < eps9) &&
          decide (|orientation q1 q2 r| < eps9))).head?
    else
      let d : Point := (det p1 p2, det q1 q2)
      let x := det d xdiff / div
      let y := det d ydiff / div
      let pt : Point := (x, y)
      if on_segment p1 p2 pt && on_segment q1 q2 pt then some pt else none
  else none

/-- The amended C5 description: as `intersection_point_spec` but with the
parallel-branch filter taken to be the bounding-box test only (no
collinearity conjunct), matching what `_on_segment` actually tests. -/
def intersection_point_desc (s1 s2 : Segment) : Option Point :=
  if segments_intersect s1 s2 then
    let p1 := s1.1
    let p2 := s1.2
    let q1 := s2.1
    let q2 := s2.2
    let xdiff : Point := (p1.1 - p2.1, q1.1 - q2.1)
    let ydiff : Point := (p1.2 - p2.2, q1.2 - q2.2)
    let div := det xdiff ydiff
    if |div| < eps9 then
      ([p1, p2, q1, q2].filter
        (fun r => on_segment p1 p2 r && on_segment q1 q2 r)).head?
    else
      let d : Point := (det p1 p2, det q1 q2)
      let x := det d xdiff / div
      let y := det d ydiff / div
      let pt : Point := (x, y)
      if on_segment p1 p2 pt && on_segment q1 q2 pt then some pt else none
  else none

/-- `hull_edges(hull)` from src/geometry.py: `[]` for fewer than two points,
the single segment for two, and for three or more the cyclic consecutive
pairs `(hull[i], hull[(i+1) % n])` for `i in range(n)`, which for a list
`l` of length at least three is `l.zip (l.tail ++ [l.head])`. -/
def hull_edges (hull : List Point) : List Segment :=
  match hull with
  | [] => []
  | [_] => []
  | [a, b] => [(a, b)]
  | a :: b :: c :: t => (a :: b :: c :: t).zip (b :: c :: (t ++ [a]))

/-- Twice the signed (shoelace) area of the polygon whose cyclic edges are
`hull_edges l`. -/
def signedArea2 (l : List Point) : ℚ :=
  ((hull_edges l).map (fun e => e.1.1 * e.2.2 - e.2.1 * e.1.2)).sum

/-- `_point_on_segment(a, b, p, eps)` from src/app.py: distance from `p` to
the closest point of segment `a b` is at most `eps`; the `hypot ≤ eps`
comparison is embedded as its exact equivalent `0 ≤ eps ∧ dist² ≤ eps²`. -/
def point_on_segment (a b p : Point) (eps : ℚ) : Bool :=
  let abv : Point := (b.1 - a.1, b.2 - a.2)
  let apv : Point := (p.1 - a.1, p.2 - a.2)
  let ab2 := abv.1 * abv.1 + abv.2 * abv.2
  if ab2 = 0 then
    decide (0 ≤ eps ∧ (p.1 - a.1) ^ 2 + (p.2 - a.2) ^ 2 ≤ eps ^ 2)
  else
    let t := max 0 (min 1 ((apv.1 * abv.1 + apv.2 * abv.2) / ab2))
    let q : Point := (a.1 + t * abv.1, a.2 + t * abv.2)
    decide (0 ≤ eps ∧ (p.1 - q.1) ^ 2 + (p.2 - q.2) ^ 2 ≤ eps ^ 2)

/-- The 1e-6 deduplication test of `_update_collisions` in src/app.py. -/
def near6 (pt q : Point) : Bool :=
  decide (|pt.1 - q.1| < eps6) && decide (|pt.2 - q.2| < eps6)

/-- Append `pt` to the collision list unless a point within 1e-6 on both
axes is already present (the `if not any(...)` guard in src/app.py). -/
def addPt (acc : List Point) (pt : Point) : List Point :=
  if acc.any (near6 pt) then acc else acc ++ [pt]

/-- The first loop of `_update_collisions`: intersection points of the path
with each hull edge. -/
def addIntersections (pathSeg : Segment) (edges : List Segment)
    (acc : List Point) : List Point :=
  edges.foldl
    (fun acc e =>
      match intersection_point pathSeg e with
      | some pt => addPt acc pt
      | none => acc) acc

/-- The second loop of `_update_collisions`: path endpoints within `tol` of
some hull edge. -/
def addEndpointHits (s e : Point) (tol : ℚ) (edges : List Segment)
    (acc : List Point) : List Point :=
  edges.foldl
    (fun acc ed =>
      [s, e].foldl
        (fun acc2 endp =>
          if point_on_segment ed.1 ed.2 endp tol then addPt acc2 endp
          else acc2) acc) acc

/-- The collision accumulation of `_update_collisions` in src/app.py, as a
function of the hull, the (optional) path endpoints and the tolerance
`self.hit_tol`. -/
def update_collisions (hull : List Point) (ps pe : Option Point)
    (tol : ℚ) : List Point :=
  match ps, pe with
  | some s, some e =>
      addEndpointHits s e tol (hull_edges hull)
        (addIntersections (s, e) (hull_edges hull) [])
  | _, _ => []

/-- `_compute_first_collision_t(hits)` from src/app.py. -/
def compute_first_collision_t (ps pe : Option Point) (hits : List Point) :
    Option ℚ :=
  match ps, pe with
  | some s, some e =>
    if hits = [] then none
    else
      let dx := e.1 - s.1
      let dy := e.2 - s.2
      let L2 := dx * dx + dy * dy
      if L2 ≤ eps12 then none
      else
        hits.foldl
          (fun best h =>
            let t := ((h.1 - s.1) * dx + (h.2 - s.2) * dy) / L2
            if 0 ≤ t ∧ t ≤ 1 then
              match best with
              | none => some t
              | some b => if t < b then some t else some b
            else best) none
  | _, _ => none

/-- `_point_at_t(t)` from src/app.py. -/
def point_at_t (ps pe : Option Point) (t : ℚ) : Point :=
  match ps, pe with
  | some s, some e => (s.1 + (e.1 - s.1) * t, s.2 + (e.2 - s.2) * t)
  | _, _ => (0, 0)

/-- The classification values returned (as strings) by
`_point_in_convex_hull` in src/app.py. -/
inductive PointClass : Type
  | inside : PointClass
  | outside : PointClass
  | onBoundary : PointClass
  deriving DecidableEq

/-- The edge loop of `_point_in_convex_hull` for hulls of three or more
vertices: `onb` is the pending on-boundary flag; `m = max eps hit_tol`. -/
def classify_loop (p : Point) (eps m : ℚ) :
    List Segment → Bool → Option PointClass
  | [], onb => some (if onb then .onBoundary else .inside)
  | (a, b) :: rest, onb =>
    if point_on_segment a b p m then classify_loop p eps m rest true
    else if cross a b p < -eps then some .outside
    else classify_loop p eps m rest onb

/-- The minimum of a list of rationals, `none` for the empty list. -/
def minQ : List ℚ → Option ℚ
  | [] => none
  | t :: rest =>
    match minQ rest with
    | none => some t
    | some m => some (min t m)

/-- Combine an accumulator with an optional minimum, `none` acting as the
identity. -/
def mergeMin : Option ℚ → Option ℚ → Option ℚ
  | none, b => b
  | some a, none => some a
  | some a, some b => some (min a b)

/-- The accumulator update of the `for` loop of `_compute_first_collision_t`:
take `t` into the running best when it lies in `[0, 1]`. -/
def stepMin (best : Option ℚ) (t : ℚ) : Option ℚ :=
  if 0 ≤ t ∧ t ≤ 1 then
    match best with
    | none => some t
    | some b => if t < b then some t else some b
  else best

/-- The bounding-box membership tested by `_on_segment`, as a proposition. -/
def InBBox (a b c : Point) : Prop :=
  min a.1 b.1 - eps9 ≤ c.1 ∧ c.1 ≤ max a.1 b.1 + eps9 ∧
  min a.2 b.2 - eps9 ≤ c.2 ∧ c.2 ≤ max a.2 b.2 + eps9

/-- Simulation relation between the collision accumulators of two runs of
the endpoint loop of `_update_collisions` at tolerances `t1 ≤ t2`: both
lists extend the tolerance-independent intersection prefix `base` by some
endpoints, the lower-tolerance run has added no more points than the
higher one, every endpoint the lower run blocks is blocked by the higher
run, and when the two runs have added equally many points they block
exactly the same endpoints. -/
def EndpointInv (base : List Point) (s e : Point)
    (acc1 acc2 : List Point) : Prop :=
  ∃ l1 l2 : List Point,
    acc1 = base ++ l1 ∧ acc2 = base ++ l2 ∧
    (∀ x ∈ l1, x = s ∨ x = e) ∧ (∀ x ∈ l2, x = s ∨ x = e) ∧
    l1.length ≤ l2.length ∧
    (∀ p : Point, (p = s ∨ p = e) →
      acc1.any (near6 p) = true → acc2.any (near6 p) = true) ∧
    (l1.length = l2.length →
      ∀ p : Point, (p = s ∨ p = e) →
        acc2.any (near6 p) = true → acc1.any (near6 p) = true)

/-- `_point_in_convex_hull(p, eps)` from src/app.py, with the hull and the
tolerance field `self.hit_tol` passed explicitly; `none` is Python's `None`,
and the hull-size-one distance test embeds `hypot ≤ eps` as in
`point_on_segment`. -/
def point_in_convex_hull (hull : List Point) (p : Option Point)
    (eps tol : ℚ) : Option PointClass :=
  match p with
  | none => none
  | some p =>
    match hull with
    | [] => none
    | [h] =>
      some (if 0 ≤ eps ∧ (p.1 - h.1) ^ 2 + (p.2 - h.2) ^ 2 ≤ eps ^ 2 then
        .onBoundary else .outside)
    | [h1, h2] =>
      some (if point_on_segment h1 h2 p eps then .onBoundary else .outside)
    | h1 :: h2 :: h3 :: t =>
      classify_loop p eps (max eps tol) (hull_edges (h1 :: h2 :: h3 :: t))
        false

/-- Invariant of the monotone-chain fold: `R` is the reversed lower chain
after processing the (strictly sorted) prefix `done` of the point list. -/
structure ChainInv (done R : List Point) : Prop where
  ne : R ≠ []
  sub : R.reverse.Sublist done
  head_eq : R.head? = done.getLast?
  last_eq : R.getLast? = done.head?
  turns : RTurns R
  covers : ∀ q ∈ done, RCovers R q

/-- The characterising property of the lower chain of the hull of a strictly
sorted point list `S`: its vertices come from `S`, it starts and ends at the
extremes of `S`, it is strictly increasing, every consecutive triple is a
strict left turn, and every point of `S` lies on or above every edge. -/
def LowerHull (S L : List Point) : Prop :=
  (∀ x ∈ L, x ∈ S) ∧ L.head? = S.head? ∧ L.getLast? = S.getLast? ∧
    L.Pairwise lexLt ∧ LeftTurns L ∧ (∀ q ∈ S, Covers L q)

/-! ## Theorems -/

theorem on_segment_iff (a b c : Point) : on_segment a b c = true ↔ InBBox a b c := by
  simp [on_segment, InBBox]

/-- C4: for all segments `s1 = (p1,p2)` and `s2 = (q1,q2)`,
`segments_intersect s1 s2` returns true if and only if either the four
orientation values properly straddle (`o1*o2 < 0` and `o3*o4 < 0`), or some
endpoint of one segment has orientation of magnitude below `1e-9` with
respect to the other segment and lies within that segment's bounding box
inflated by `1e-9`. -/
theorem segments_intersect_characterization (s1 s2 : Segment) :
    segments_intersect s1 s2 = true ↔
      ((orientation s1.1 s1.2 s2.1 * orientation s1.1 s1.2 s2.2 < 0 ∧
        orientation s2.1 s2.2 s1.1 * orientation s2.1 s2.2 s1.2 < 0) ∨
       (|orientation s1.1 s1.2 s2.1| < eps9 ∧ InBBox s1.1 s1.2 s2.1) ∨
       (|orientation s1.1 s1.2 s2.2| < eps9 ∧ InBBox s1.1 s1.2 s2.2) ∨
       (|orientation s2.1 s2.2 s1.1| < eps9 ∧ InBBox s2.1 s2.2 s1.1) ∨
       (|orientation s2.1 s2.2 s1.2| < eps9 ∧ InBBox s2.1 s2.2 s1.2)) := by
  simp only [segments_intersect, on_segment, Bool.or_eq_true, Bool.and_eq_true,
    decide_eq_true_eq, InBBox, or_assoc]

theorem mergeMin_none (a : Option ℚ) : mergeMin a none = a := by
  cases a <;> rfl

theorem mergeMin_assoc (a b c : Option ℚ) :
    mergeMin (mergeMin a b) c = mergeMin a (mergeMin b c) := by
  cases a <;> cases b <;> cases c <;> simp [mergeMin, min_assoc]

theorem stepMin_in (acc : Option ℚ) (t : ℚ) (h : 0 ≤ t ∧ t ≤ 1) :
    stepMin acc t = mergeMin acc (some t) := by
  cases acc with
  | none => simp [stepMin, mergeMin, h]
  | some b =>
    simp only [stepMin, if_pos h, mergeMin]
    rcases lt_trichotomy t b with hlt | heq | hgt
    · rw [if_pos hlt, min_comm b t, min_eq_left hlt.le]
    · subst heq; rw [if_neg (lt_irrefl t), min_self]
    · rw [if_neg (not_lt.mpr hgt.le), min_eq_left hgt.le]

theorem stepMin_out (acc : Option ℚ) (t : ℚ) (h : ¬ (0 ≤ t ∧ t ≤ 1)) :
    stepMin acc t = acc := by
  simp [stepMin, h]

theorem foldl_stepMin (l : List ℚ) : ∀ acc : Option ℚ,
    l.foldl stepMin acc =
      mergeMin acc (minQ (l.filter (fun t => decide (0 ≤ t ∧ t ≤ 1)))) := by
  induction l with
  | nil => intro acc; simp [minQ, mergeMin_none]
  | cons t rest ih =>
    intro acc
    by_cases h : 0 ≤ t ∧ t ≤ 1
    · have hfilter :
          (t :: rest).filter (fun t => decide (0 ≤ t ∧ t ≤ 1)) =
            t :: rest.filter (fun t => decide (0 ≤ t ∧ t ≤ 1)) := by
        simp [List.filter_cons, h]
      rw [hfilter]
      have hmin : minQ (t :: rest.filter (fun t => decide (0 ≤ t ∧ t ≤ 1))) =
          mergeMin (some t) (minQ (rest.filter (fun t => decide (0 ≤ t ∧ t ≤ 1)))) := by
        simp only [minQ]
        cases minQ (rest.filter (fun t => decide (0 ≤ t ∧ t ≤ 1))) <;> rfl
      rw [hmin, List.foldl_cons, ih, stepMin_in acc t h, mergeMin_assoc]
    · have hfilter :
          (t :: rest).filter (fun t => decide (0 ≤ t ∧ t ≤ 1)) =
            rest.filter (fun t => decide (0 ≤ t ∧ t ≤ 1)) := by
        simp [List.filter_cons, h]
      rw [hfilter, List.foldl_cons, stepMin_out acc t h, ih]

/-- C3: `_compute_first_collision_t` returns `None` when the path is
incomplete, when the collision set is empty, or when `L² ≤ 1e-12` for
`d = end − start`; otherwise it returns the minimum, over all collision
points `h`, of the projection parameter `t = ((h − start)·d)/L²` restricted
to `t ∈ [0, 1]`, and `None` when no collision point has `t` in that range. -/
theorem first_collision_t_characterization (ps pe : Option Point)
    (hits : List Point) :
    compute_first_collision_t ps pe hits =
      match ps, pe with
      | some s, some e =>
        if hits = [] then none
        else
          if (e.1 - s.1) * (e.1 - s.1) + (e.2 - s.2) * (e.2 - s.2) ≤ eps12 then
            none
          else
            minQ ((hits.map (fun h =>
              ((h.1 - s.1) * (e.1 - s.1) + (h.2 - s.2) * (e.2 - s.2)) /
                ((e.1 - s.1) * (e.1 - s.1) + (e.2 - s.2) * (e.2 - s.2)))).filter
              (fun t => decide (0 ≤ t ∧ t ≤ 1)))
      | _, _ => none := by
  match ps, pe with
  | none, none => rfl
  | none, some _ => rfl
  | some _, none => rfl
  | some s, some e =>
    simp only [compute_first_collision_t]
    by_cases hempty : hits = []
    · simp [hempty]
    · rw [if_neg hempty, if_neg hempty]
      by_cases hdeg :
          (e.1 - s.1) * (e.1 - s.1) + (e.2 - s.2) * (e.2 - s.2) ≤ eps12
      · rw [if_pos hdeg, if_pos hdeg]
      · rw [if_neg hdeg, if_neg hdeg]
        exact
          ((List.foldl_map
            (fun h : Point =>
              ((h.1 - s.1) * (e.1 - s.1) + (h.2 - s.2) * (e.2 - s.2)) /
                ((e.1 - s.1) * (e.1 - s.1) + (e.2 - s.2) * (e.2 - s.2)))
            stepMin hits none).symm.trans
          (foldl_stepMin (hits.map
            (fun h : Point =>
              ((h.1 - s.1) * (e.1 - s.1) + (h.2 - s.2) * (e.2 - s.2)) /
                ((e.1 - s.1) * (e.1 - s.1) + (e.2 - s.2) * (e.2 - s.2)))) none))

theorem classify_loop_outside (p : Point) (eps m : ℚ) :
    ∀ (E : List Segment) (onb : Bool),
      classify_loop p eps m E onb = some PointClass.outside ↔
        ∃ e ∈ E, ¬ point_on_segment e.1 e.2 p m = true ∧
          cross e.1 e.2 p < -eps := by
  intro E
  induction E with
  | nil => intro onb; cases onb <;> simp [classify_loop]
  | cons hd rest ih =>
    intro onb
    obtain ⟨a, b⟩ := hd
    by_cases hpos : point_on_segment a b p m = true
    · rw [show classify_loop p eps m ((a, b) :: rest) onb =
          classify_loop p eps m rest true by simp [classify_loop, hpos]]
      rw [ih]
      constructor
      · rintro ⟨e, he, h1, h2⟩
        exact ⟨e, List.mem_cons_of_mem _ he, h1, h2⟩
      · rintro ⟨e, he, h1, h2⟩
        rcases List.mem_cons.mp he with rfl | he2
        · exact absurd hpos h1
        · exact ⟨e, he2, h1, h2⟩
    · by_cases hout : cross a b p < -eps
      · rw [show classify_loop p eps m ((a, b) :: rest) onb =
            some PointClass.outside by simp [classify_loop, hpos, hout]]
        constructor
        · intro _
          exact ⟨(a, b), List.mem_cons_self _ _, hpos, hout⟩
        · intro _; rfl
      · rw [show classify_loop p eps m ((a, b) :: rest) onb =
            classify_loop p eps m rest onb by simp [classify_loop, hpos, hout]]
        rw [ih]
        constructor
        · rintro ⟨e, he, h1, h2⟩
          exact ⟨e, List.mem_cons_of_mem _ he, h1, h2⟩
        · rintro ⟨e, he, h1, h2⟩
          rcases List.mem_cons.mp he with rfl | he2
          · exact absurd h2 hout
          · exact ⟨e, he2, h1, h2⟩

theorem classify_loop_no_outside (p : Point) (eps m : ℚ) :
    ∀ (E : List Segment) (onb : Bool),
      (∀ e ∈ E, point_on_segment e.1 e.2 p m = true ∨
        ¬ cross e.1 e.2 p < -eps) →
      classify_loop p eps m E onb =
        some (if onb || E.any (fun e => point_on_segment e.1 e.2 p m) then
          PointClass.onBoundary else PointClass.inside) := by
  intro E
  induction E with
  | nil => intro onb _; cases onb <;> simp [classify_loop]
  | cons hd rest ih =>
    intro onb hno
    obtain ⟨a, b⟩ := hd
    by_cases hpos : point_on_segment a b p m = true
    · rw [show classify_loop p eps m ((a, b) :: rest) onb =
          classify_loop p eps m rest true by simp [classify_loop, hpos]]
      rw [ih true (fun e he => hno e (List.mem_cons_of_mem _ he))]
      simp [hpos]
    · have hout : ¬ cross a b p < -eps := by
        rcases hno (a, b) (List.mem_cons_self _ _) with h | h
        · exact absurd h hpos
        · exact h
      rw [show classify_loop p eps m ((a, b) :: rest) onb =
          classify_loop p eps m rest onb by simp [classify_loop, hpos, hout]]
      rw [ih onb (fun e he => hno e (List.mem_cons_of_mem _ he))]
      rw [Bool.not_eq_true] at hpos
      rw [List.any_cons, hpos, Bool.false_or]

/-- C6: for every hull of three or more vertices, every point `p` and all
tolerances `eps`, `tol`, the classifier `_point_in_convex_hull` examines
the edges with `m = max eps tol`: it returns outside exactly when some edge
fails the boundary test and has `cross (b−a) (p−a) < −eps` (an outside
verdict overrides any pending boundary flag, and a boundary touch alone
never produces a verdict before all edges are seen); and when no edge
yields an outside verdict, it returns onBoundary exactly when some edge
passed the boundary test, else inside. -/
theorem point_in_hull_characterization (hull : List Point) (p : Point)
    (eps tol : ℚ) (hlen : 3 ≤ hull.length) :
    (point_in_convex_hull hull (some p) eps tol = some PointClass.outside ↔
      ∃ e ∈ hull_edges hull,
        ¬ point_on_segment e.1 e.2 p (max eps tol) = true ∧
        cross e.1 e.2 p < -eps) ∧
    ((∀ e ∈ hull_edges hull,
        point_on_segment e.1 e.2 p (max eps tol) = true ∨
        ¬ cross e.1 e.2 p < -eps) →
      point_in_convex_hull hull (some p) eps tol =
        some (if (hull_edges hull).any
            (fun e => point_on_segment e.1 e.2 p (max eps tol)) then
          PointClass.onBoundary else PointClass.inside)) := by
  match hull, hlen with
  | h1 :: h2 :: h3 :: t, _ =>
    constructor
    · exact classify_loop_outside p eps (max eps tol)
        (hull_edges (h1 :: h2 :: h3 :: t)) false
    · intro hno
      rw [show point_in_convex_hull (h1 :: h2 :: h3 :: t) (some p) eps tol =
          classify_loop p eps (max eps tol)
            (hull_edges (h1 :: h2 :: h3 :: t)) false from rfl]
      rw [classify_loop_no_outside p eps (max eps tol) _ false hno]
      rw [Bool.false_or]

/-- Witness for C6 at the unit square with `p = (0, 1/2)`, `eps = 1e-9`,
`tol = 1/100`: the point lies on the left edge, no edge is an outside
verdict, and the classifier answers onBoundary. -/
theorem point_in_hull_characterization_witness :
    point_in_convex_hull [(0, 0), (1, 0), (1, 1), (0, 1)]
      (some (0, 1 / 2)) eps9 (1 / 100) = some PointClass.onBoundary := by
  have h := (point_in_hull_characterization
    [(0, 0), (1, 0), (1, 1), (0, 1)] (0, 1 / 2) eps9 (1 / 100)
    (by norm_num)).2
    (by norm_num [hull_edges, point_on_segment, cross, eps9])
  rw [h]
  norm_num [hull_edges, point_on_segment, eps9]

theorem addEndpointHits_id (s e : Point) (tol : ℚ) :
    ∀ (edges : List Segment) (acc : List Point),
      (∀ ed ∈ edges, point_on_segment ed.1 ed.2 s tol = false ∧
        point_on_segment ed.1 ed.2 e tol = false) →
      addEndpointHits s e tol edges acc = acc := by
  intro edges
  induction edges with
  | nil => intro acc _; rfl
  | cons ed rest ih =>
    intro acc hall
    have hed := hall ed (List.mem_cons_self _ _)
    have hrest := fun x hx => hall x (List.mem_cons_of_mem _ hx)
    simp only [addEndpointHits, List.foldl_cons, List.foldl_nil] at ih ⊢
    rw [hed.1, hed.2]
    simp only [Bool.false_eq_true, if_false]
    exact ih acc hrest

theorem square_no_endpoint_hits (tol : ℚ) (h : tol < 1) :
    ∀ ed ∈ hull_edges [((0 : ℚ), (0 : ℚ)), (1, 0), (1, 1), (0, 1)],
      point_on_segment ed.1 ed.2 (-1, 1 / 2) tol = false ∧
      point_on_segment ed.1 ed.2 (2, 1 / 2) tol = false := by
  intro ed hed
  rw [show hull_edges [((0 : ℚ), (0 : ℚ)), (1, 0), (1, 1), (0, 1)] =
    [((0, 0), (1, 0)), ((1, 0), (1, 1)), ((1, 1), (0, 1)),
      ((0, 1), (0, 0))] from rfl] at hed
  fin_cases hed <;> refine ⟨?_, ?_⟩ <;>
    · norm_num [point_on_segment, min_def, max_def]
      rintro h0
      first
      | nlinarith
      | (rw [abs_of_nonneg h0]; linarith)

/-- C2 amended: for the unit-square hull and the path from `(-1, 1/2)` to
`(2, 1/2)`, for every tolerance below 1 (in particular for every tolerance
small relative to this geometry) the collision accumulation of
`_update_collisions` yields exactly the two crossing points `(1, 1/2)` and
`(0, 1/2)`, and `_compute_first_collision_t` on that collision set yields
`t = 1/3`, and the path point at `t = 1/3` is `(0, 1/2)`. -/
theorem square_path_example (tol : ℚ) (h : tol < 1) :
    update_collisions [(0, 0), (1, 0), (1, 1), (0, 1)]
        (some (-1, 1 / 2)) (some (2, 1 / 2)) tol = [(1, 1 / 2), (0, 1 / 2)] ∧
    compute_first_collision_t (some (-1, 1 / 2)) (some (2, 1 / 2))
        (update_collisions [(0, 0), (1, 0), (1, 1), (0, 1)]
          (some (-1, 1 / 2)) (some (2, 1 / 2)) tol) = some (1 / 3) ∧
    point_at_t (some (-1, 1 / 2)) (some (2, 1 / 2)) (1 / 3) =
      ((0 : ℚ), (1 / 2 : ℚ)) := by
  have hcol : update_collisions [(0, 0), (1, 0), (1, 1), (0, 1)]
      (some (-1, 1 / 2)) (some (2, 1 / 2)) tol = [(1, 1 / 2), (0, 1 / 2)] := by
    simp only [update_collisions]
    rw [addEndpointHits_id _ _ _ _ _ (square_no_endpoint_hits tol h)]
    norm_num [addIntersections, hull_edges, intersection_point,
      segments_intersect, orientation, cross, on_segment, det, addPt, near6,
      eps6, eps9]
  refine ⟨hcol, ?_, ?_⟩
  · rw [hcol]
    norm_num [compute_first_collision_t, eps12]
    exact fun hbad => absurd hbad (by simp)
  · norm_num [point_at_t]

/-- Witness for C2 amended at tolerance 0. -/
theorem square_path_example_witness :
    (0 : ℚ) < 1 ∧
    update_collisions [(0, 0), (1, 0), (1, 1), (0, 1)]
        (some (-1, 1 / 2)) (some (2, 1 / 2)) 0 = [(1, 1 / 2), (0, 1 / 2)] ∧
    compute_first_collision_t (some (-1, 1 / 2)) (some (2, 1 / 2))
        (update_collisions [(0, 0), (1, 0), (1, 1), (0, 1)]
          (some (-1, 1 / 2)) (some (2, 1 / 2)) 0) = some (1 / 3) := by
  have h := square_path_example 0 (by norm_num)
  exact ⟨by norm_num, h.1, h.2.1⟩

/-- C2 counterexample: the tolerance is a free input, and the claim fails
for tolerance 2: the collision set then also contains the path start
`(-1, 1/2)` (so it is not exactly the two claimed points) and the first
collision parameter is 0, not 1/3. -/
theorem square_path_example_counterexample :
    ((-1, 1 / 2) : Point) ∈ update_collisions [(0, 0), (1, 0), (1, 1), (0, 1)]
        (some (-1, 1 / 2)) (some (2, 1 / 2)) 2 ∧
    compute_first_collision_t (some (-1, 1 / 2)) (some (2, 1 / 2))
        (update_collisions [(0, 0), (1, 0), (1, 1), (0, 1)]
          (some (-1, 1 / 2)) (some (2, 1 / 2)) 2) = some 0 := by
  have hcol : update_collisions [(0, 0), (1, 0), (1, 1), (0, 1)]
      (some (-1, 1 / 2)) (some (2, 1 / 2)) 2 =
      [(1, 1 / 2), (0, 1 / 2), (-1, 1 / 2), (2, 1 / 2)] := by
    norm_num [update_collisions, addEndpointHits, addIntersections,
      hull_edges, intersection_point, segments_intersect, orientation, cross,
      on_segment, det, addPt, near6, point_on_segment, min_def, max_def,
      eps6, eps9]
  rw [hcol]
  constructor
  · norm_num
  · norm_num [compute_first_collision_t, eps12]
    exact fun hbad => absurd hbad (by simp)

/-- C5 counterexample: two touching near-collinear segments, a short
horizontal `s1 = ((1,2), (1.001,2))` and a long exactly parallel one `s2`
offset vertically by `9e-10`, for which `segments_intersect` is true (the
endpoint `q1` of `s2` is collinear with `s1` within 1e-9 and inside its
inflated bounding box) and the determinant is 0, so the parallel branch
runs: the code returns the endpoint `p2 = (1001/1000, 2)`, which lies in
both bounding boxes but FAILS the collinearity test against `s2`
(orientation magnitude `9e-8 ≥ 1e-9`), while the claim's description
(bounding box AND collinearity) returns `q1` instead. -/
theorem intersection_point_claim_counterexample :
    segments_intersect ((1, 2), (1001 / 1000, 2))
      ((2001 / 2000, 20000000009 / 10000000000),
        (202001 / 2000, 20000000009 / 10000000000)) = true ∧
    intersection_point ((1, 2), (1001 / 1000, 2))
      ((2001 / 2000, 20000000009 / 10000000000),
        (202001 / 2000, 20000000009 / 10000000000)) =
      some (1001 / 1000, 2) ∧
    intersection_point_spec ((1, 2), (1001 / 1000, 2))
      ((2001 / 2000, 20000000009 / 10000000000),
        (202001 / 2000, 20000000009 / 10000000000)) =
      some (2001 / 2000, 20000000009 / 10000000000) ∧
    ¬ intersection_point ((1, 2), (1001 / 1000, 2))
        ((2001 / 2000, 20000000009 / 10000000000),
          (202001 / 2000, 20000000009 / 10000000000)) =
      intersection_point_spec ((1, 2), (1001 / 1000, 2))
        ((2001 / 2000, 20000000009 / 10000000000),
          (202001 / 2000, 20000000009 / 10000000000)) := by
  have hsi : segments_intersect ((1, 2), (1001 / 1000, 2))
      ((2001 / 2000, 20000000009 / 10000000000),
        (202001 / 2000, 20000000009 / 10000000000)) = true := by
    norm_num [segments_intersect, orientation, cross, on_segment, eps9,
      abs_lt]
  have hip : intersection_point ((1, 2), (1001 / 1000, 2))
      ((2001 / 2000, 20000000009 / 10000000000),
        (202001 / 2000, 20000000009 / 10000000000)) =
      some (1001 / 1000, 2) := by
    norm_num [intersection_point, hsi, det, on_segment, eps9, abs_lt]
  have hspec : intersection_point_spec ((1, 2), (1001 / 1000, 2))
      ((2001 / 2000, 20000000009 / 10000000000),
        (202001 / 2000, 20000000009 / 10000000000)) =
      some (2001 / 2000, 20000000009 / 10000000000) := by
    norm_num [intersection_point_spec, hsi, det, on_segment, orientation,
      cross, eps9, abs_lt]
  refine ⟨hsi, hip, hspec, ?_⟩
  rw [hip, hspec]
  norm_num

/-- C5 amended: `intersection_point` returns `None` whenever
`segments_intersect` is false; when it is true and the line-system
determinant has magnitude below 1e-9, it returns the first endpoint among
`p1, p2, q1, q2` that lies within both segments' inflated bounding boxes
(no collinearity filter), or `None` if none qualifies; otherwise it returns
the unique line-line intersection point, but only if that point lies within
both segments' inflated bounding boxes, else `None`. -/
theorem intersection_point_description (s1 s2 : Segment) :
    intersection_point s1 s2 = intersection_point_desc s1 s2 := by
  by_cases h : segments_intersect s1 s2 = true <;>
    simp [intersection_point, intersection_point_desc, h]

theorem near6_self (p : Point) : near6 p p = true := by
  simp [near6, eps6]

theorem near6_symm (p q : Point) : near6 p q = near6 q p := by
  simp [near6, abs_sub_comm]

theorem point_on_segment_mono (a b p : Point) (t1 t2 : ℚ) (h12 : t1 ≤ t2)
    (h : point_on_segment a b p t1 = true) :
    point_on_segment a b p t2 = true := by
  simp only [point_on_segment] at h ⊢
  split_ifs at h ⊢ with hab
  · rw [decide_eq_true_eq] at h ⊢
    exact ⟨h.1.trans h12, h.2.trans (pow_le_pow_left₀ h.1 h12 2)⟩
  · rw [decide_eq_true_eq] at h ⊢
    exact ⟨h.1.trans h12, h.2.trans (pow_le_pow_left₀ h.1 h12 2)⟩

theorem pair_cases {s e p x y : Point} (hp : p = s ∨ p = e)
    (hx : x = s ∨ x = e) (hy : y = s ∨ y = e) (hne : p ≠ x) :
    y = p ∨ y = x := by
  rcases hp with rfl | rfl <;> rcases hx with rfl | rfl <;> tauto

theorem two_le_length_of_mem_ne {p x : Point} {l : List Point}
    (hp : p ∈ l) (hx : x ∈ l) (hne : p ≠ x) : 2 ≤ l.length := by
  match l with
  | [] => cases hp
  | [z] =>
    rw [List.mem_singleton] at hp hx
    exact absurd (hp.trans hx.symm) hne
  | z1 :: z2 :: t => simp only [List.length_cons]; omega

theorem endpointInv_add_right {base : List Point} {s e x : Point}
    {acc1 acc2 : List Point} (hx : x = s ∨ x = e)
    (hinv : EndpointInv base s e acc1 acc2) :
    EndpointInv base s e acc1 (acc2 ++ [x]) := by
  obtain ⟨l1, l2, h1, h2, hm1, hm2, hlen, hfwd, hbwd⟩ := hinv
  refine ⟨l1, l2 ++ [x], h1, by rw [h2, List.append_assoc], hm1, ?_, ?_, ?_, ?_⟩
  · intro y hy
    rcases List.mem_append.mp hy with hy | hy
    · exact hm2 y hy
    · rw [List.mem_singleton] at hy; subst hy; exact hx
  · rw [List.length_append, List.length_singleton]; omega
  · intro p hp hany
    simp [List.any_append, hfwd p hp hany]
  · intro hlen2
    exfalso
    rw [List.length_append, List.length_singleton] at hlen2
    omega

theorem endpoint_step {base : List Point} (s e x : Point) (hx : x = s ∨ x = e)
    (pos1 pos2 : Bool) (hmono : pos1 = true → pos2 = true)
    {acc1 acc2 : List Point} (hinv : EndpointInv base s e acc1 acc2) :
    EndpointInv base s e (if pos1 = true then addPt acc1 x else acc1)
      (if pos2 = true then addPt acc2 x else acc2) := by
  by_cases hp1 : pos1 = true
  · have hp2 := hmono hp1
    rw [if_pos hp1, if_pos hp2]
    simp only [addPt]
    by_cases hb1 : acc1.any (near6 x) = true
    · rw [if_pos hb1]
      by_cases hb2 : acc2.any (near6 x) = true
      · rw [if_pos hb2]; exact hinv
      · rw [if_neg hb2]; exact endpointInv_add_right hx hinv
    · rw [if_neg hb1]
      by_cases hb2 : acc2.any (near6 x) = true
      · rw [if_pos hb2]
        obtain ⟨l1, l2, h1, h2, hm1, hm2, hlen, hfwd, hbwd⟩ := hinv
        have hlt : l1.length < l2.length := by
          rcases Nat.lt_or_ge l1.length l2.length with h | h
          · exact h
          · exact absurd (hbwd (Nat.le_antisymm hlen h) x hx hb2) hb1
        refine ⟨l1 ++ [x], l2, by rw [h1, List.append_assoc], h2, ?_, hm2,
          ?_, ?_, ?_⟩
        · intro y hy
          rcases List.mem_append.mp hy with hy | hy
          · exact hm1 y hy
          · rw [List.mem_singleton] at hy; subst hy; exact hx
        · rw [List.length_append, List.length_singleton]; omega
        · intro p hp hany
          rw [List.any_append, Bool.or_eq_true] at hany
          rcases hany with hany | hany
          · exact hfwd p hp hany
          · have hpx : near6 p x = true := by simpa using hany
            by_cases hpeq : p = x
            · subst hpeq; exact hb2
            · obtain ⟨y, hy, hxy⟩ := List.any_eq_true.mp hb2
              have hy2 := hy
              rw [h2] at hy2
              rcases List.mem_append.mp hy2 with hyb | hyl
              · exact absurd (List.any_eq_true.mpr
                  ⟨y, by rw [h1]; exact List.mem_append_left _ hyb, hxy⟩) hb1
              · rcases pair_cases hp hx (hm2 y hyl) hpeq with hyp | hyx
                · exact List.any_eq_true.mpr
                    ⟨y, hy, by rw [hyp]; exact near6_self p⟩
                · exact List.any_eq_true.mpr ⟨y, hy, by rw [hyx]; exact hpx⟩
        · intro hlen2 p hp hany2
          rw [List.length_append, List.length_singleton] at hlen2
          rw [List.any_append, Bool.or_eq_true]
          by_cases hpx : near6 p x = true
          · right; simpa using hpx
          · by_cases hpacc : acc1.any (near6 p) = true
            · exact Or.inl hpacc
            · exfalso
              have hpnex : p ≠ x := by
                intro hcontra
                subst hcontra
                exact hpx (near6_self p)
              obtain ⟨y, hy, hpy⟩ := List.any_eq_true.mp hany2
              rw [h2] at hy
              rcases List.mem_append.mp hy with hyb | hyl
              · exact hpacc (List.any_eq_true.mpr
                  ⟨y, by rw [h1]; exact List.mem_append_left _ hyb, hpy⟩)
              · have hpl2 : p ∈ l2 := by
                  rcases pair_cases hp hx (hm2 y hyl) hpnex with h | h
                  · rw [← h]; exact hyl
                  · rw [h] at hpy; exact absurd hpy hpx
                obtain ⟨y2, hy2, hxy2⟩ := List.any_eq_true.mp hb2
                rw [h2] at hy2
                rcases List.mem_append.mp hy2 with hy2b | hy2l
                · exact hb1 (List.any_eq_true.mpr
                    ⟨y2, by rw [h1]; exact List.mem_append_left _ hy2b, hxy2⟩)
                · have hxnep : x ≠ p := fun hc => hpnex hc.symm
                  have hxl2 : x ∈ l2 := by
                    rcases pair_cases hx hp (hm2 y2 hy2l) hxnep with h | h
                    · rw [← h]; exact hy2l
                    · rw [h] at hxy2
                      exfalso
                      apply hpx
                      rw [near6_symm p x]
                      exact hxy2
                  have h2len : 2 ≤ l2.length :=
                    two_le_length_of_mem_ne hpl2 hxl2 hpnex
                  have hl1ne : l1 ≠ [] := by
                    intro hnil
                    rw [hnil] at hlen2
                    simp at hlen2
                    omega
                  obtain ⟨z, hz⟩ := List.exists_mem_of_ne_nil l1 hl1ne
                  have hzacc : z ∈ acc1 := by
                    rw [h1]; exact List.mem_append_right _ hz
                  rcases pair_cases hp hx (hm1 z hz) hpnex with hzp | hzx
                  · rw [hzp] at hzacc
                    exact hpacc (List.any_eq_true.mpr
                      ⟨p, hzacc, near6_self p⟩)
                  · rw [hzx] at hzacc
                    exact hb1 (List.any_eq_true.mpr
                      ⟨x, hzacc, near6_self x⟩)
      · rw [if_neg hb2]
        obtain ⟨l1, l2, h1, h2, hm1, hm2, hlen, hfwd, hbwd⟩ := hinv
        refine ⟨l1 ++ [x], l2 ++ [x], by rw [h1, List.append_assoc],
          by rw [h2, List.append_assoc], ?_, ?_, ?_, ?_, ?_⟩
        · intro y hy
          rcases List.mem_append.mp hy with hy | hy
          · exact hm1 y hy
          · rw [List.mem_singleton] at hy; subst hy; exact hx
        · intro y hy
          rcases List.mem_append.mp hy with hy | hy
          · exact hm2 y hy
          · rw [List.mem_singleton] at hy; subst hy; exact hx
        · simp only [List.length_append, List.length_singleton]; omega
        · intro p hp hany
          rw [List.any_append, Bool.or_eq_true] at hany ⊢
          rcases hany with hany | hany
          · exact Or.inl (hfwd p hp hany)
          · exact Or.inr hany
        · intro hlen2 p hp hany
          rw [List.length_append, List.length_singleton,
            List.length_append, List.length_singleton] at hlen2
          have hleneq : l1.length = l2.length := by omega
          rw [List.any_append, Bool.or_eq_true] at hany ⊢
          rcases hany with hany | hany
          · exact Or.inl (hbwd hleneq p hp hany)
          · exact Or.inr hany
  · rw [if_neg hp1]
    by_cases hp2 : pos2 = true
    · rw [if_pos hp2]
      simp only [addPt]
      by_cases hb2 : acc2.any (near6 x) = true
      · rw [if_pos hb2]; exact hinv
      · rw [if_neg hb2]; exact endpointInv_add_right hx hinv
    · rw [if_neg hp2]; exact hinv

theorem addEndpointHits_mono (base : List Point) (s e : Point) (t1 t2 : ℚ)
    (h12 : t1 ≤ t2) :
    ∀ (edges : List Segment) (acc1 acc2 : List Point),
      EndpointInv base s e acc1 acc2 →
      EndpointInv base s e (addEndpointHits s e t1 edges acc1)
        (addEndpointHits s e t2 edges acc2) := by
  intro edges
  induction edges with
  | nil => intro acc1 acc2 h; exact h
  | cons ed rest ih =>
    intro acc1 acc2 hinv
    have hstep_s := endpoint_step s e s (Or.inl rfl)
      (point_on_segment ed.1 ed.2 s t1) (point_on_segment ed.1 ed.2 s t2)
      (point_on_segment_mono ed.1 ed.2 s t1 t2 h12) hinv
    have hstep_e := endpoint_step s e e (Or.inr rfl)
      (point_on_segment ed.1 ed.2 e t1) (point_on_segment ed.1 ed.2 e t2)
      (point_on_segment_mono ed.1 ed.2 e t1 t2 h12) hstep_s
    simp only [addEndpointHits, List.foldl_cons, List.foldl_nil] at ih ⊢
    exact ih _ _ hstep_e

/-- C9: for every hull, every complete path and all tolerances `t1 ≤ t2`,
the collision set computed by `_update_collisions` at tolerance `t2` has at
least as many points as the one computed at tolerance `t1`. -/
theorem collisions_tolerance_monotone (hull : List Point) (s e : Point)
    (t1 t2 : ℚ) (h12 : t1 ≤ t2) :
    (update_collisions hull (some s) (some e) t1).length ≤
      (update_collisions hull (some s) (some e) t2).length := by
  have hinv0 : EndpointInv (addIntersections (s, e) (hull_edges hull) []) s e
      (addIntersections (s, e) (hull_edges hull) [])
      (addIntersections (s, e) (hull_edges hull) []) :=
    ⟨[], [], by simp, by simp, by simp, by simp, le_refl _,
      fun p _ h => h, fun _ p _ h => h⟩
  have hfinal := addEndpointHits_mono _ s e t1 t2 h12 (hull_edges hull) _ _
    hinv0
  obtain ⟨l1, l2, h1, h2, _, _, hlen, _, _⟩ := hfinal
  show (addEndpointHits s e t1 (hull_edges hull)
      (addIntersections (s, e) (hull_edges hull) [])).length ≤
    (addEndpointHits s e t2 (hull_edges hull)
      (addIntersections (s, e) (hull_edges hull) [])).length
  rw [h1, h2, List.length_append, List.length_append]
  omega

/-- Witness for C9: unit-square hull, path `(-1,1/2)` to `(2,1/2)`,
tolerances `0 ≤ 2`. -/
theorem collisions_tolerance_monotone_witness :
    (0 : ℚ) ≤ 2 ∧
    (update_collisions [(0, 0), (1, 0), (1, 1), (0, 1)]
        (some (-1, 1 / 2)) (some (2, 1 / 2)) 0).length ≤
      (update_collisions [(0, 0), (1, 0), (1, 1), (0, 1)]
        (some (-1, 1 / 2)) (some (2, 1 / 2)) 2).length :=
  ⟨by norm_num,
    collisions_tolerance_monotone [(0, 0), (1, 0), (1, 1), (0, 1)]
      (-1, 1 / 2) (2, 1 / 2) 0 2 (by norm_num)⟩

/-! ### Lexicographic order and `sorted(set(...))` -/

theorem lexLt_trans {a b c : Point} (h1 : lexLt a b) (h2 : lexLt b c) :
    lexLt a c := by
  rcases h1 with h1 | ⟨h1x, h1y⟩ <;> rcases h2 with h2 | ⟨h2x, h2y⟩
  · exact Or.inl (h1.trans h2)
  · exact Or.inl (h2x ▸ h1)
  · exact Or.inl (h1x ▸ h2)
  · exact Or.inr ⟨h1x.trans h2x, h1y.trans h2y⟩

theorem lexLt_irrefl (a : Point) : ¬ lexLt a a := by
  rintro (h | ⟨_, h⟩) <;> exact lt_irrefl _ h

theorem lexLt_asymm {a b : Point} (h : lexLt a b) : ¬ lexLt b a :=
  fun h2 => lexLt_irrefl a (lexLt_trans h h2)

theorem lexLt_ne {a b : Point} (h : lexLt a b) : a ≠ b :=
  fun he => lexLt_irrefl a (he ▸ h)

theorem lexLt_total {a b : Point} (h : a ≠ b) : lexLt a b ∨ lexLt b a := by
  rcases lt_trichotomy a.1 b.1 with hx | hx | hx
  · exact Or.inl (Or.inl hx)
  · rcases lt_trichotomy a.2 b.2 with hy | hy | hy
    · exact Or.inl (Or.inr ⟨hx, hy⟩)
    · exact absurd (Prod.ext hx hy) h
    · exact Or.inr (Or.inr ⟨hx.symm, hy⟩)
  · exact Or.inr (Or.inl hx)

theorem lexLt_x_le {a b : Point} (h : lexLt a b) : a.1 ≤ b.1 := by
  rcases h with h | ⟨h, _⟩
  · exact h.le
  · exact h.le

theorem lexLt_y_lt_of_x_eq {a b : Point} (h : lexLt a b) (hx : a.1 = b.1) :
    a.2 < b.2 := by
  rcases h with h | ⟨_, h⟩
  · exact absurd hx (ne_of_lt h)
  · exact h

theorem insertPt_mem (p : Point) : ∀ (l : List Point) (x : Point),
    x ∈ insertPt p l ↔ x = p ∨ x ∈ l := by
  intro l
  induction l with
  | nil => intro x; simp [insertPt]
  | cons q rest ih =>
    intro x
    by_cases h1 : lexLt p q
    · simp [insertPt, h1]
    · by_cases h2 : p = q
      · subst h2
        simp only [insertPt, if_neg h1, if_pos rfl]
        constructor
        · intro h; exact Or.inr h
        · rintro (rfl | h)
          · exact List.mem_cons_self _ _
          · exact h
      · simp only [insertPt, if_neg h1, if_neg h2, List.mem_cons, ih x]
        tauto

theorem insertPt_pairwise (p : Point) : ∀ (l : List Point),
    l.Pairwise lexLt → (insertPt p l).Pairwise lexLt := by
  intro l
  induction l with
  | nil => intro _; simp [insertPt]
  | cons q rest ih =>
    intro hl
    rw [List.pairwise_cons] at hl
    by_cases h1 : lexLt p q
    · rw [show insertPt p (q :: rest) = p :: q :: rest by
        simp [insertPt, h1]]
      rw [List.pairwise_cons]
      refine ⟨?_, List.pairwise_cons.mpr hl⟩
      intro x hx
      rcases List.mem_cons.mp hx with rfl | hx
      · exact h1
      · exact lexLt_trans h1 (hl.1 x hx)
    · by_cases h2 : p = q
      · rw [show insertPt p (q :: rest) = q :: rest by
          simp only [insertPt, if_neg h1, if_pos h2]]
        exact List.pairwise_cons.mpr hl
      · rw [show insertPt p (q :: rest) = q :: insertPt p rest by
          simp [insertPt, h1, h2]]
        rw [List.pairwise_cons]
        refine ⟨?_, ih hl.2⟩
        intro x hx
        rcases (insertPt_mem p rest x).mp hx with rfl | hx
        · rcases lexLt_total h2 with h | h
          · exact absurd h h1
          · exact h
        · exact hl.1 x hx

theorem sortedDedup_pairwise (l : List Point) :
    (sortedDedup l).Pairwise lexLt := by
  induction l with
  | nil => simp [sortedDedup]
  | cons p rest ih => exact insertPt_pairwise p _ ih

theorem sortedDedup_mem (l : List Point) (x : Point) :
    x ∈ sortedDedup l ↔ x ∈ l := by
  induction l with
  | nil => simp [sortedDedup]
  | cons p rest ih =>
    show x ∈ insertPt p (sortedDedup rest) ↔ _
    rw [insertPt_mem, ih, List.mem_cons]

theorem sortedDedup_nodup (l : List Point) : (sortedDedup l).Nodup :=
  (sortedDedup_pairwise l).imp (fun h => lexLt_ne h)

/-! ### Cross-product identities -/

theorem cross_cyclic (a b c : Point) : cross a b c = cross b c a := by
  unfold cross; ring

theorem cross_swap (a b c : Point) : cross a b c = -cross a c b := by
  unfold cross; ring

theorem cross_self_right (a b : Point) : cross a b b = 0 := by
  unfold cross; ring

/-- Replacing a popped chain point: the four-point area identity. -/
theorem ident_replace (a b p q : Point) :
    cross a p q = cross a b q + cross b p q - cross a b p := by
  unfold cross; ring

/-- Coverage of a point in the x-slab of a popped edge. -/
theorem ident_slab (a b p q : Point) :
    (b.1 - a.1) * cross a p q =
      (p.1 - a.1) * cross a b q - (q.1 - a.1) * cross a b p := by
  unfold cross; ring

/-- Coverage of points left of the stop vertex by the new edge. -/
theorem ident_stop (a m p q : Point) :
    (m.1 - a.1) * cross m p q =
      (p.1 - m.1) * cross a m q + (m.1 - q.1) * cross a m p := by
  unfold cross; ring

/-- Propagating coverage of the new point backwards along the chain. -/
theorem ident_backprop (x y z p : Point) :
    (z.1 - y.1) * cross x y p =
      (p.1 - y.1) * cross x y z + (y.1 - x.1) * cross y z p := by
  unfold cross; ring

theorem cross_vertical {a b : Point} (h : a.1 = b.1) (p : Point) :
    cross a b p = (b.2 - a.2) * (a.1 - p.1) := by
  unfold cross; rw [← h]; ring

theorem cross_shift_x {o a : Point} (p q : Point) (h : p.1 = q.1) :
    cross o a p = cross o a q + (a.1 - o.1) * (p.2 - q.2) := by
  unfold cross; rw [h]; ring

/-- Points on the parameterised line through `c` and `d`: the cross product
of two such points against any `q` is the parameter difference times the
base cross product. -/
theorem cross_two_params (c d q : Point) (s t : ℚ) :
    cross (c.1 + s * (d.1 - c.1), c.2 + s * (d.2 - c.2))
      (c.1 + t * (d.1 - c.1), c.2 + t * (d.2 - c.2)) q =
      (t - s) * cross c d q := by
  unfold cross; ring

theorem collinear_param {c d y : Point} (h : cross c d y = 0) (hne : c ≠ d) :
    ∃ t : ℚ, y.1 = c.1 + t * (d.1 - c.1) ∧ y.2 = c.2 + t * (d.2 - c.2) := by
  by_cases hx : d.1 = c.1
  · have hy2 : d.2 - c.2 ≠ 0 := by
      intro h0
      apply hne
      have : d.2 = c.2 := by linarith
      exact (Prod.ext hx this).symm
    refine ⟨(y.2 - c.2) / (d.2 - c.2), ?_, ?_⟩
    · unfold cross at h
      rw [hx] at h
      have : (d.2 - c.2) * (y.1 - c.1) = 0 := by linarith
      rcases mul_eq_zero.mp this with h0 | h0
      · exact absurd h0 hy2
      · rw [hx]; linarith
    · field_simp
  · refine ⟨(y.1 - c.1) / (d.1 - c.1), ?_, ?_⟩
    · rw [div_mul_cancel₀ _ (sub_ne_zero.mpr hx)]
      ring
    · unfold cross at h
      have hx2 : d.1 - c.1 ≠ 0 := sub_ne_zero.mpr hx
      field_simp
      nlinarith [h]

/-- Lexicographic comparison of two points of the parameterised line
through `c` and `d`, when `c` lexicographically precedes `d`. -/
theorem lexLt_param {c d : Point} (hcd : lexLt c d) (s t : ℚ) :
    lexLt (c.1 + s * (d.1 - c.1), c.2 + s * (d.2 - c.2))
      (c.1 + t * (d.1 - c.1), c.2 + t * (d.2 - c.2)) ↔ s < t := by
  rcases hcd with hx | ⟨hx, hy⟩
  · have hdx : 0 < d.1 - c.1 := by linarith
    constructor
    · rintro (h | ⟨h, h2⟩)
      · simp only at h; nlinarith
      · simp only at h h2
        have hst : s = t :=
          mul_right_cancel₀ (ne_of_gt hdx) (by linarith)
        subst hst
        linarith
    · intro h
      exact Or.inl (by simp only; nlinarith)
  · have hdx : d.1 - c.1 = 0 := by linarith
    have hdy : 0 < d.2 - c.2 := by linarith
    constructor
    · rintro (h | ⟨_, h⟩)
      · simp only [hdx] at h; nlinarith
      · simp only [hdx] at h; nlinarith
    · intro h
      refine Or.inr ⟨by simp only [hdx]; ring, by simp only; nlinarith⟩

/-! ### Structural lemmas for chains -/

theorem RTurns_tail {x : Point} {l : List Point} (h : RTurns (x :: l)) :
    RTurns l := by
  match l with
  | [] => trivial
  | [a] => trivial
  | b :: a :: t => exact h.2

theorem RCovers_tail {x : Point} {l : List Point} {q : Point}
    (h : RCovers (x :: l) q) : RCovers l q := by
  match l with
  | [] => trivial
  | a :: t => exact h.2

theorem Covers_tail {x : Point} {l : List Point} {q : Point}
    (h : Covers (x :: l) q) : Covers l q := by
  match l with
  | [] => trivial
  | a :: t => exact h.2

theorem LeftTurns_tail {x : Point} {l : List Point} (h : LeftTurns (x :: l)) :
    LeftTurns l := by
  match l with
  | [] => trivial
  | [a] => trivial
  | b :: a :: t => exact h.2

theorem Covers_snoc (q : Point) : ∀ (l : List Point) (x : Point),
    Covers (l ++ [x]) q ↔
      Covers l q ∧ ∀ a, l.getLast? = some a → 0 ≤ cross a x q := by
  intro l
  induction l with
  | nil => intro x; simp [Covers]
  | cons h0 rest ih =>
    intro x
    match rest with
    | [] =>
      simp only [List.nil_append, List.singleton_append, Covers,
        List.getLast?_singleton]
      constructor
      · rintro ⟨h1, _⟩
        exact ⟨trivial, fun a ha => by rw [Option.some_inj] at ha; subst ha; exact h1⟩
      · rintro ⟨_, h2⟩
        exact ⟨h2 h0 rfl, trivial⟩
    | h1 :: rest' =>
      simp only [List.cons_append]
      rw [show Covers (h0 :: h1 :: (rest' ++ [x])) q =
        (0 ≤ cross h0 h1 q ∧ Covers (h1 :: (rest' ++ [x])) q) from rfl]
      rw [show Covers (h0 :: h1 :: rest') q =
        (0 ≤ cross h0 h1 q ∧ Covers (h1 :: rest') q) from rfl]
      rw [List.getLast?_cons_cons]
      have ih2 := ih x
      simp only [List.cons_append] at ih2
      rw [ih2]
      tauto

theorem RCovers_reverse (q : Point) : ∀ (R : List Point),
    RCovers R q → Covers R.reverse q := by
  intro R
  induction R with
  | nil => intro _; trivial
  | cons b R' ih =>
    intro h
    rw [List.reverse_cons, Covers_snoc]
    refine ⟨ih (RCovers_tail h), ?_⟩
    intro a ha
    rw [List.getLast?_reverse] at ha
    match R', h, ha with
    | [], _, ha => simp at ha
    | a' :: t, h, ha =>
      rw [show (a' :: t).head? = some a' from rfl, Option.some_inj] at ha
      subst ha
      exact h.1

theorem LeftTurns_snoc : ∀ (l : List Point) (x : Point),
    LeftTurns (l ++ [x]) ↔
      LeftTurns l ∧
        ∀ a b, l.dropLast.getLast? = some a → l.getLast? = some b →
          0 < cross a b x
  | [], x => by simp [LeftTurns]
  | [a], x => by simp [LeftTurns]
  | [a, b], x => by
    rw [show [a, b] ++ [x] = [a, b, x] from rfl]
    rw [show LeftTurns [a, b, x] = (0 < cross a b x ∧ LeftTurns [b, x]) from
      rfl]
    rw [show ([a, b] : List Point).dropLast = [a] from rfl]
    simp only [List.getLast?_singleton, List.getLast?_cons_cons,
      Option.some_inj]
    constructor
    · rintro ⟨h, _⟩
      refine ⟨trivial, ?_⟩
      intro a2 b2 ha hb
      subst ha; subst hb
      exact h
    · rintro ⟨_, h⟩
      exact ⟨h a b rfl rfl, trivial⟩
  | a :: b :: c :: t, x => by
    have ih := LeftTurns_snoc (b :: c :: t) x
    simp only [List.cons_append] at ih ⊢
    rw [show LeftTurns (a :: b :: c :: (t ++ [x])) =
      (0 < cross a b c ∧ LeftTurns (b :: c :: (t ++ [x]))) from rfl]
    rw [show LeftTurns (a :: b :: c :: t) =
      (0 < cross a b c ∧ LeftTurns (b :: c :: t)) from rfl]
    rw [ih]
    rw [show (a :: b :: c :: t).dropLast = a :: b :: (c :: t).dropLast by
      rw [List.dropLast_cons₂, List.dropLast_cons₂]]
    rw [show (b :: c :: t).dropLast = b :: (c :: t).dropLast from
      List.dropLast_cons₂]
    rw [show (a :: b :: (c :: t).dropLast).getLast? =
      (b :: (c :: t).dropLast).getLast? from List.getLast?_cons_cons]
    rw [show (a :: b :: c :: t).getLast? = (b :: c :: t).getLast? from
      List.getLast?_cons_cons]
    tauto

theorem RTurns_reverse : ∀ (R : List Point), RTurns R → LeftTurns R.reverse := by
  intro R
  induction R with
  | nil => intro _; trivial
  | cons c R' ih =>
    intro h
    rw [List.reverse_cons, LeftTurns_snoc]
    refine ⟨ih (RTurns_tail h), ?_⟩
    intro a b ha hb
    rw [List.dropLast_reverse] at ha
    rw [List.getLast?_reverse] at ha hb
    match R', h, ha, hb with
    | b' :: a' :: t, h, ha, hb =>
      rw [show (b' :: a' :: t).head? = some b' from rfl, Option.some_inj] at hb
      rw [show (b' :: a' :: t).tail.head? = some a' from rfl,
        Option.some_inj] at ha
      subst ha; subst hb
      exact h.1

theorem RTurns_suffix : ∀ (pre T : List Point), RTurns (pre ++ T) → RTurns T := by
  intro pre
  induction pre with
  | nil => intro T h; exact h
  | cons x pre' ih => intro T h; exact ih T (RTurns_tail h)

theorem RCovers_suffix : ∀ (pre T : List Point) (q : Point),
    RCovers (pre ++ T) q → RCovers T q := by
  intro pre
  induction pre with
  | nil => intro T q h; exact h
  | cons x pre' ih => intro T q h; exact ih T q (RCovers_tail h)

theorem Covers_join : ∀ (l1 : List Point) (x : Point) (l2 : List Point)
    (q : Point), Covers (l1 ++ [x]) q → Covers (x :: l2) q →
    Covers (l1 ++ x :: l2) q := by
  intro l1
  induction l1 with
  | nil => intro x l2 q _ h2; exact h2
  | cons a l1' ih =>
    intro x l2 q h1 h2
    match l1' with
    | [] =>
      exact ⟨h1.1, h2⟩
    | b :: l1'' =>
      exact ⟨h1.1, ih x l2 q h1.2 h2⟩

theorem LeftTurns_join : ∀ (l1 : List Point) (x b : Point) (l2 : List Point),
    LeftTurns (l1 ++ [x]) → LeftTurns (x :: b :: l2) →
    (∀ a, l1.getLast? = some a → 0 < cross a x b) →
    LeftTurns (l1 ++ x :: b :: l2) := by
  intro l1
  induction l1 with
  | nil => intro x b l2 _ h2 _; exact h2
  | cons a l1' ih =>
    intro x b l2 h1 h2 hj
    match l1' with
    | [] =>
      exact ⟨hj a rfl, h2⟩
    | [c] =>
      refine ⟨h1.1, ?_⟩
      exact ⟨hj c rfl, h2⟩
    | c :: d :: l1'' =>
      refine ⟨h1.1, ?_⟩
      exact ih x b l2 h1.2 h2 (fun a2 ha2 => hj a2 (by
        rw [List.getLast?_cons_cons]; exact ha2))

theorem covers_linEdges : ∀ (l : List Point) (q : Point), Covers l q →
    ∀ e ∈ linEdges l, 0 ≤ cross e.1 e.2 q := by
  intro l
  induction l with
  | nil => intro q _ e he; cases he
  | cons a l' ih =>
    intro q hc e he
    match l', hc, he with
    | [], _, he => cases he
    | b :: t, hc, he =>
      rcases List.mem_cons.mp he with rfl | he2
      · exact hc.1
      · exact ih q hc.2 e he2

theorem turns_linTriples : ∀ (l : List Point), LeftTurns l →
    ∀ t ∈ linTriples l, 0 < cross t.1 t.2.1 t.2.2 := by
  intro l
  induction l with
  | nil => intro _ t ht; cases ht
  | cons a l' ih =>
    intro hl t ht
    match l', hl, ht with
    | [], _, ht => cases ht
    | [b], _, ht => cases ht
    | b :: c :: t', hl, ht =>
      rcases List.mem_cons.mp ht with rfl | ht2
      · exact hl.1
      · exact ih hl.2 t ht2

theorem edge_pred_of_mem : ∀ (l : List Point) (p : Point), p ∈ l →
    l.head? ≠ some p → ∃ x, (x, p) ∈ linEdges l := by
  intro l
  induction l with
  | nil => intro p hp; cases hp
  | cons a l' ih =>
    intro p hp hne
    have hpa : p ≠ a := fun h => hne (by simp [h])
    have hpl : p ∈ l' := by
      rcases List.mem_cons.mp hp with rfl | h
      · exact absurd rfl hpa
      · exact h
    match l', hpl with
    | b :: t, hpl =>
      by_cases hpb : p = b
      · subst hpb
        exact ⟨a, List.mem_cons_self _ _⟩
      · obtain ⟨x, hx⟩ := ih p hpl (fun h => hpb (by
          rw [show (b :: t).head? = some b from rfl, Option.some_inj] at h
          exact h.symm))
        exact ⟨x, List.mem_cons_of_mem _ hx⟩

theorem triple_of_interior : ∀ (l : List Point) (p : Point), p ∈ l →
    l.head? ≠ some p → l.getLast? ≠ some p →
    ∃ x y, (x, p, y) ∈ linTriples l := by
  intro l
  induction l with
  | nil => intro p hp; cases hp
  | cons a l' ih =>
    intro p hp hh hl
    have hpa : p ≠ a := fun h => hh (by simp [h])
    have hpl : p ∈ l' := by
      rcases List.mem_cons.mp hp with rfl | h
      · exact absurd rfl hpa
      · exact h
    match l', hpl, hl with
    | b :: t, hpl, hl =>
      by_cases hpb : p = b
      · subst hpb
        match t, hl with
        | [], hl =>
          exact absurd (show (a :: [p]).getLast? = some p by simp) hl
        | c :: t', _ =>
          exact ⟨a, c, List.mem_cons_self _ _⟩
      · have hl2 : (b :: t).getLast? ≠ some p := by
          rw [List.getLast?_cons_cons] at hl
          exact hl
        obtain ⟨x, y, hxy⟩ := ih p hpl (fun h => hpb (by
          rw [show (b :: t).head? = some b from rfl, Option.some_inj] at h
          exact h.symm)) hl2
        match t, hxy with
        | c :: t', hxy =>
          exact ⟨x, y, List.mem_cons_of_mem _ hxy⟩

theorem linTriples_edge_left : ∀ (l : List Point) (x p y : Point),
    (x, p, y) ∈ linTriples l → (x, p) ∈ linEdges l := by
  intro l
  induction l with
  | nil => intro x p y h; cases h
  | cons a l' ih =>
    intro x p y h
    match l', h with
    | b :: c :: t, h =>
      rcases List.mem_cons.mp h with heq | h2
      · rw [Prod.mk.injEq] at heq
        rcases heq with ⟨rfl, heq2⟩
        rw [Prod.mk.injEq] at heq2
        rcases heq2 with ⟨rfl, _⟩
        exact List.mem_cons_self _ _
      · exact List.mem_cons_of_mem _ (ih x p y h2)

theorem linTriples_edge_right : ∀ (l : List Point) (x p y : Point),
    (x, p, y) ∈ linTriples l → (p, y) ∈ linEdges l := by
  intro l
  induction l with
  | nil => intro x p y h; cases h
  | cons a l' ih =>
    intro x p y h
    match l', h with
    | b :: c :: t, h =>
      rcases List.mem_cons.mp h with heq | h2
      · rw [Prod.mk.injEq] at heq
        rcases heq with ⟨rfl, heq2⟩
        rw [Prod.mk.injEq] at heq2
        rcases heq2 with ⟨rfl, rfl⟩
        exact List.mem_cons_of_mem _ (List.mem_cons_self _ _)
      · exact List.mem_cons_of_mem _ (ih x p y h2)

theorem cross_self_13 (a b : Point) : cross a b a = 0 := by
  unfold cross; ring

/-- Once the new point `p` is weakly left of the topmost retained edge, it
is weakly left of every edge further down the (reversed) chain. -/
theorem backprop : ∀ (R : List Point) (p : Point), RTurns R →
    R.Pairwise (fun x y => lexLt y x) → (∀ x ∈ R, lexLt x p) →
    (match R with
      | c :: z :: _ => 0 ≤ cross z c p
      | _ => True) →
    RCovers R p
  | [], _, _, _, _, _ => trivial
  | [_], _, _, _, _, _ => trivial
  | c :: z :: T, p, hturns, hsort, hlex, hhead => by
    have hsort' := List.Pairwise.of_cons hsort
    have hlex' : ∀ x ∈ z :: T, lexLt x p :=
      fun x hx => hlex x (List.mem_cons_of_mem _ hx)
    have hzc : lexLt z c :=
      List.rel_of_pairwise_cons hsort (List.mem_cons_self _ _)
    have hzp : lexLt z p := hlex z (List.mem_cons_of_mem _
      (List.mem_cons_self _ _))
    have hcp : lexLt c p := hlex c (List.mem_cons_self _ _)
    have hcond : (match z :: T with
        | c :: z :: _ => 0 ≤ cross z c p
        | _ => True) := by
      match T, hturns with
      | [], _ => trivial
      | c2 :: T', hturns =>
        show 0 ≤ cross c2 z p
        have htriple : 0 < cross c2 z c := hturns.1
        have hc2z : lexLt c2 z :=
          List.rel_of_pairwise_cons hsort' (List.mem_cons_self _ _)
        rcases lt_or_eq_of_le (lexLt_x_le hzc) with hlt | heq
        · have hid := ident_backprop c2 z c p
          have t1 : 0 ≤ (p.1 - z.1) * cross c2 z c :=
            mul_nonneg (by linarith [lexLt_x_le hzp]) htriple.le
          have t2 : 0 ≤ (z.1 - c2.1) * cross z c p :=
            mul_nonneg (by linarith [lexLt_x_le hc2z]) hhead
          have h3 : 0 ≤ (c.1 - z.1) * cross c2 z p := by
            rw [hid]; linarith
          exact (mul_nonneg_iff_of_pos_left (by linarith)).mp h3
        · have hc2lt : c2.1 < z.1 := by
            rcases lt_or_eq_of_le (lexLt_x_le hc2z) with h | h
            · exact h
            · exfalso
              have hz0 : cross c2 z c = 0 := by
                rw [cross_vertical h]
                have h2 : c2.1 = c.1 := h.trans heq
                rw [h2]
                ring
              linarith
          have hid := ident_backprop c2 z c p
          rw [show c.1 - z.1 = 0 by linarith, zero_mul] at hid
          have hpz : 0 ≤ p.1 - z.1 := by linarith [lexLt_x_le hzp]
          have ht2 : 0 ≤ (z.1 - c2.1) * cross z c p :=
            mul_nonneg (by linarith) hhead
          have hple : (p.1 - z.1) * cross c2 z c = 0 := by
            nlinarith [mul_nonneg hpz htriple.le]
          have hpx : p.1 = z.1 := by
            rcases mul_eq_zero.mp hple with h | h
            · linarith
            · exact absurd h (ne_of_gt htriple)
          have hshift := cross_shift_x (o := c2) (a := z) p c
            (hpx.trans heq)
          have hcp2 : c.2 < p.2 :=
            lexLt_y_lt_of_x_eq hcp (hpx.trans heq).symm
          nlinarith [mul_nonneg (by linarith : (0:ℚ) ≤ z.1 - c2.1)
            (by linarith : (0:ℚ) ≤ p.2 - c.2)]
    exact ⟨hhead, backprop (z :: T) p (RTurns_tail hturns) hsort' hlex' hcond⟩

theorem sorted_head_min {l : List Point} (hs : l.Pairwise lexLt) {a q : Point}
    (ha : l.head? = some a) (hq : q ∈ l) : q = a ∨ lexLt a q := by
  match l, ha with
  | a0 :: t, ha =>
    rw [show (a0 :: t).head? = some a0 from rfl, Option.some_inj] at ha
    subst ha
    rcases List.mem_cons.mp hq with rfl | hq2
    · exact Or.inl rfl
    · exact Or.inr (List.rel_of_pairwise_cons hs hq2)

/-- The core lemma: one run of the `while` pop loop.  The result is a
nonempty suffix of the chain; the new edge from its top to `p` covers every
processed point; pushing `p` keeps the strict-turn property; and `p` itself
is covered by the retained chain. -/
theorem popWhile_main (done : List Point) (p : Point)
    (hsortedD : done.Pairwise lexLt) (hgt : ∀ q ∈ done, lexLt q p) :
    ∀ (R : List Point), R ≠ [] →
      R.reverse.Sublist done →
      R.getLast? = done.head? →
      RTurns R →
      (∀ q ∈ done, RCovers R q) →
      (∀ q ∈ done, R.headI.1 < q.1 → 0 ≤ cross R.headI p q) →
      (popWhile p R).IsSuffix R ∧ popWhile p R ≠ [] ∧
      RTurns (p :: popWhile p R) ∧
      (∀ q ∈ done, RCovers (p :: popWhile p R) q) ∧
      RCovers (p :: popWhile p R) p
  | [], hne, _, _, _, _, _ => absurd rfl hne
  | [a], _, hsub, hlast, _, _, hch => by
    rw [show popWhile p [a] = [a] from rfl]
    refine ⟨List.suffix_refl _, List.cons_ne_nil _ _, trivial, ?_, ?_⟩
    · intro q hq
      refine ⟨?_, trivial⟩
      have ha : done.head? = some a := by
        rw [← hlast]; rfl
      rcases sorted_head_min hsortedD ha hq with rfl | hlex
      · exact le_of_eq (cross_self_13 q p).symm
      · have hap : lexLt a p := hgt a (hsub.subset (by
          rw [List.mem_reverse]; exact List.mem_cons_self _ _))
        rcases lt_or_eq_of_le (lexLt_x_le hlex) with h | h
        · exact hch q hq h
        · have hy : a.2 < q.2 := lexLt_y_lt_of_x_eq hlex h
          have hid : cross a p q = (p.1 - a.1) * (q.2 - a.2) := by
            unfold cross; rw [← h]; ring
          rw [hid]
          exact mul_nonneg (by linarith [lexLt_x_le hap]) (by linarith)
    · exact ⟨le_of_eq (cross_self_right a p).symm, trivial⟩
  | b :: a :: rest, _, hsub, hlast, hturns, hcov, hch => by
    have hmemb : b ∈ done :=
      hsub.subset (List.mem_reverse.mpr (List.mem_cons_self _ _))
    have hmema : a ∈ done :=
      hsub.subset (List.mem_reverse.mpr
        (List.mem_cons_of_mem _ (List.mem_cons_self _ _)))
    have hab : lexLt a b := by
      have hpair : ((b :: a :: rest).reverse).Pairwise lexLt :=
        List.Pairwise.sublist hsub hsortedD
      have h2 : ([a, b] : List Point).Pairwise lexLt := by
        apply List.Pairwise.sublist ?_ hpair
        rw [show (b :: a :: rest).reverse = rest.reverse ++ [a, b] by simp]
        exact (List.IsSuffix.sublist ⟨rest.reverse, rfl⟩)
      exact List.rel_of_pairwise_cons h2 (List.mem_cons_self _ _)
    have hap : lexLt a p := hgt a hmema
    have hbp : lexLt b p := hgt b hmemb
    by_cases hpop : cross a b p ≤ 0
    · rw [show popWhile p (b :: a :: rest) = popWhile p (a :: rest) by
        simp [popWhile, hpop]]
      have hsub2 : (a :: rest).reverse.Sublist done := by
        apply List.Sublist.trans ?_ hsub
        rw [show (a :: rest).reverse = rest.reverse ++ [a] by simp]
        rw [show (b :: a :: rest).reverse = rest.reverse ++ [a, b] by simp]
        exact List.Sublist.append_left ((List.nil_sublist [b]).cons₂ a) _
      have hch2 : ∀ q ∈ done, (a :: rest).headI.1 < q.1 →
          0 ≤ cross (a :: rest).headI p q := by
        intro q hq hqx
        have hqx2 : a.1 < q.1 := hqx
        show 0 ≤ cross a p q
        have hedge : 0 ≤ cross a b q := (hcov q hq).1
        by_cases hqb : b.1 < q.1
        · have hbpq : 0 ≤ cross b p q := hch q hq hqb
          rw [ident_replace a b p q]
          linarith
        · push_neg at hqb
          have hba : a.1 < b.1 := lt_of_lt_of_le hqx2 hqb
          have h3 : 0 ≤ (b.1 - a.1) * cross a p q := by
            rw [ident_slab a b p q]
            have t1 : 0 ≤ (p.1 - a.1) * cross a b q :=
              mul_nonneg (by linarith [lexLt_x_le hap]) hedge
            have t2 : (q.1 - a.1) * cross a b p ≤ 0 :=
              mul_nonpos_of_nonneg_of_nonpos (by linarith) hpop
            linarith
          exact (mul_nonneg_iff_of_pos_left (by linarith)).mp h3
      have hrec := popWhile_main done p hsortedD hgt (a :: rest)
        (List.cons_ne_nil _ _) hsub2
        ((List.getLast?_cons_cons).symm.trans hlast)
        (RTurns_tail hturns)
        (fun q hq => RCovers_tail (hcov q hq))
        hch2
      obtain ⟨hsuf, hne2, hturn2, hcov2, hcovp⟩ := hrec
      exact ⟨hsuf.trans (List.suffix_cons _ _), hne2, hturn2, hcov2, hcovp⟩
    · push_neg at hpop
      rw [show popWhile p (b :: a :: rest) = b :: a :: rest by
        simp only [popWhile, if_neg (not_le.mpr hpop)]]
      refine ⟨List.suffix_refl _, List.cons_ne_nil _ _, ⟨hpop, hturns⟩,
        ?_, ?_⟩
      · intro q hq
        refine ⟨?_, hcov q hq⟩
        by_cases hqb : b.1 < q.1
        · exact hch q hq hqb
        · push_neg at hqb
          have hedge : 0 ≤ cross a b q := (hcov q hq).1
          have hba : a.1 < b.1 := by
            rcases lt_or_eq_of_le (lexLt_x_le hab) with h | h
            · exact h
            · exfalso
              have hcv := cross_vertical h p
              have hy : a.2 < b.2 := lexLt_y_lt_of_x_eq hab h
              have hpx : b.1 ≤ p.1 := lexLt_x_le hbp
              nlinarith [hpop]
          have h3 : 0 ≤ (b.1 - a.1) * cross b p q := by
            rw [ident_stop a b p q]
            have t1 : 0 ≤ (p.1 - b.1) * cross a b q :=
              mul_nonneg (by linarith [lexLt_x_le hbp]) hedge
            have t2 : 0 ≤ (b.1 - q.1) * cross a b p :=
              mul_nonneg (by linarith) hpop.le
            linarith
          exact (mul_nonneg_iff_of_pos_left (by linarith)).mp h3
      · refine ⟨le_of_eq (cross_self_right b p).symm, ?_⟩
        exact backprop (b :: a :: rest) p hturns
          (List.pairwise_reverse.mp (List.Pairwise.sublist hsub hsortedD))
          (fun x hx => hgt x (hsub.subset (List.mem_reverse.mpr hx)))
          hpop.le

theorem sorted_getLast_max : ∀ {l : List Point}, l.Pairwise lexLt →
    ∀ {m q : Point}, l.getLast? = some m → q ∈ l → q = m ∨ lexLt q m
  | [a0], _, m, q, hm, hq => by
    rw [show [a0].getLast? = some a0 from rfl, Option.some_inj] at hm
    subst hm
    rw [List.mem_singleton] at hq
    exact Or.inl hq
  | a0 :: b0 :: t, hs, m, q, hm, hq => by
    rw [List.getLast?_cons_cons] at hm
    rcases List.mem_cons.mp hq with rfl | hq2
    · exact Or.inr (List.rel_of_pairwise_cons hs (List.mem_of_mem_getLast? hm))
    · exact sorted_getLast_max (List.Pairwise.of_cons hs) hm hq2

theorem getLast?_cons_ne (a : Point) {l : List Point} (h : l ≠ []) :
    (a :: l).getLast? = l.getLast? := by
  match l, h with
  | b :: t, _ => exact List.getLast?_cons_cons

/-- One step of the fold (processing the next point `p`, lexicographically
above everything processed so far) preserves the chain invariant. -/
theorem chainStep_inv (done R : List Point) (p : Point)
    (hsorted : done.Pairwise lexLt) (hgt : ∀ q ∈ done, lexLt q p)
    (hinv : ChainInv done R) : ChainInv (done ++ [p]) (chainStep R p) := by
  obtain ⟨hne, hsub, hhead, hlastR, hturns, hcovers⟩ := hinv
  match R, hne, hsub, hhead, hlastR, hturns, hcovers with
  | r :: R', _, hsub, hhead, hlastR, hturns, hcovers =>
    have hch : ∀ q ∈ done, (r :: R').headI.1 < q.1 →
        0 ≤ cross (r :: R').headI p q := by
      intro q hq hqx
      exfalso
      have hr : done.getLast? = some r := by
        rw [← hhead]; rfl
      rcases sorted_getLast_max hsorted hr hq with rfl | hlex
      · exact lt_irrefl _ hqx
      · exact absurd hqx (not_lt.mpr (lexLt_x_le hlex))
    obtain ⟨hsuf, hne2, hturns2, hcov2, hcovp⟩ :=
      popWhile_main done p hsorted hgt (r :: R') (List.cons_ne_nil _ _)
        hsub hlastR hturns hcovers hch
    show ChainInv (done ++ [p]) (p :: popWhile p (r :: R'))
    refine ⟨List.cons_ne_nil _ _, ?_, ?_, ?_, hturns2, ?_⟩
    · rw [List.reverse_cons]
      exact List.Sublist.append ((hsuf.sublist.reverse).trans hsub)
        (List.Sublist.refl _)
    · rw [List.getLast?_concat]; rfl
    · have hds : done.head?.isSome = true := by
        rw [← hlastR]
        exact List.getLast?_isSome.mpr (List.cons_ne_nil _ _)
      obtain ⟨d, hd⟩ := Option.isSome_iff_exists.mp hds
      obtain ⟨pre, hpre⟩ := hsuf
      have h1 : (popWhile p (r :: R')).getLast? = done.head? := by
        rw [← hlastR]
        nth_rewrite 2 [← hpre]
        rw [List.getLast?_append,
          Option.or_of_isSome (List.getLast?_isSome.mpr hne2)]
      rw [getLast?_cons_ne p hne2, h1, List.head?_append, hd]
      rfl
    · intro q hq
      rcases List.mem_append.mp hq with hq1 | hq2
      · exact hcov2 q hq1
      · rw [List.mem_singleton] at hq2
        subst hq2
        exact hcovp

/-- The fold over the remaining sorted points preserves the invariant. -/
theorem build_inv : ∀ (rest done R : List Point),
    (done ++ rest).Pairwise lexLt → ChainInv done R →
    ChainInv (done ++ rest) (rest.foldl chainStep R)
  | [], done, R, _, hinv => by
    rw [List.append_nil]; exact hinv
  | p :: rest2, done, R, hsorted, hinv => by
    have heq : done ++ p :: rest2 = (done ++ [p]) ++ rest2 :=
      List.append_cons done p rest2
    have hsorted2 : ((done ++ [p]) ++ rest2).Pairwise lexLt := by
      rw [← heq]; exact hsorted
    have hpair := List.pairwise_append.mp hsorted
    have hstep := chainStep_inv done R p hpair.1
      (fun q hq => hpair.2.2 q hq p (List.mem_cons_self _ _)) hinv
    have hrec := build_inv rest2 (done ++ [p]) (chainStep R p) hsorted2 hstep
    rw [heq]
    exact hrec

theorem chainInv_init (x : Point) : ChainInv [x] [x] :=
  ⟨List.cons_ne_nil _ _, by simp, by simp, by simp, trivial, fun _ _ => trivial⟩

/-- The lower-chain builder establishes the chain invariant on the whole
sorted point list. -/
theorem buildRev_inv (pts : List Point) (hne : pts ≠ [])
    (hsorted : pts.Pairwise lexLt) : ChainInv pts (buildRev pts) := by
  match pts, hne, hsorted with
  | x :: rest, _, hsorted =>
    have h0 := build_inv rest [x] [x]
      (by rw [List.singleton_append]; exact hsorted) (chainInv_init x)
    rw [List.singleton_append] at h0
    exact h0

/-- Reading a chain invariant forwards: the reversed chain is a lower hull of
the processed sorted list. -/
theorem lowerHull_of_chainInv {S R : List Point} (hs : S.Pairwise lexLt)
    (hinv : ChainInv S R) : LowerHull S R.reverse := by
  obtain ⟨hne, hsub, hhead, hlast, hturns, hcovers⟩ := hinv
  refine ⟨fun x hx => hsub.subset hx, ?_, ?_,
    List.Pairwise.sublist hsub hs, RTurns_reverse R hturns,
    fun q hq => RCovers_reverse q R (hcovers q hq)⟩
  · rw [List.head?_reverse]; exact hlast
  · rw [List.getLast?_reverse]; exact hhead

theorem cross_negP (o a b : Point) :
    cross (negP o) (negP a) (negP b) = cross o a b := by
  simp only [cross, negP]; ring

theorem negP_negP (p : Point) : negP (negP p) = p := by
  simp [negP]

theorem negP_inj {p q : Point} (h : negP p = negP q) : p = q := by
  rw [← negP_negP p, h, negP_negP]

theorem lexLt_negP {p q : Point} : lexLt (negP q) (negP p) ↔ lexLt p q := by
  simp only [lexLt, negP]
  constructor
  · rintro (h | ⟨h1, h2⟩)
    · exact Or.inl (by linarith)
    · exact Or.inr ⟨by linarith, by linarith⟩
  · rintro (h | ⟨h1, h2⟩)
    · exact Or.inl (by linarith)
    · exact Or.inr ⟨by linarith, by linarith⟩

theorem popWhile_cons2 (p a b : Point) (rest : List Point) :
    popWhile p (b :: a :: rest) =
      if cross a b p ≤ 0 then popWhile p (a :: rest) else b :: a :: rest := rfl

theorem popWhile_negP (p : Point) : ∀ (R : List Point),
    popWhile (negP p) (R.map negP) = (popWhile p R).map negP
  | [] => rfl
  | [_] => rfl
  | b :: a :: rest => by
    rw [List.map_cons, List.map_cons, popWhile_cons2, popWhile_cons2,
      cross_negP, ← List.map_cons]
    by_cases h : cross a b p ≤ 0
    · rw [if_pos h, if_pos h, popWhile_negP p (a :: rest)]
    · rw [if_neg h, if_neg h]
      simp

theorem chainStep_negP (R : List Point) (p : Point) :
    chainStep (R.map negP) (negP p) = (chainStep R p).map negP := by
  show negP p :: popWhile (negP p) (R.map negP) = (p :: popWhile p R).map negP
  rw [List.map_cons, popWhile_negP]

theorem foldl_chainStep_negP : ∀ (pts R : List Point),
    List.foldl chainStep (R.map negP) (pts.map negP)
      = (List.foldl chainStep R pts).map negP
  | [], _ => rfl
  | p :: rest, R => by
    rw [List.map_cons, List.foldl_cons, List.foldl_cons, chainStep_negP]
    exact foldl_chainStep_negP rest (chainStep R p)

theorem buildRev_negP (pts : List Point) :
    buildRev (pts.map negP) = (buildRev pts).map negP :=
  foldl_chainStep_negP pts []

theorem pairwise_negP_reverse {pts : List Point} (hs : pts.Pairwise lexLt) :
    (pts.reverse.map negP).Pairwise lexLt := by
  rw [List.pairwise_map, List.pairwise_reverse]
  exact hs.imp (fun h => lexLt_negP.mpr h)

theorem Covers_negP (q : Point) : ∀ (l : List Point),
    Covers (l.map negP) (negP q) → Covers l q
  | [] => fun _ => trivial
  | [_] => fun _ => trivial
  | a :: b :: t => fun h =>
    ⟨by have h1 := h.1; rwa [cross_negP] at h1, Covers_negP q (b :: t) h.2⟩

theorem LeftTurns_negP : ∀ (l : List Point),
    LeftTurns (l.map negP) → LeftTurns l
  | [] => fun _ => trivial
  | [_] => fun _ => trivial
  | [_, _] => fun _ => trivial
  | a :: b :: c :: t => fun h =>
    ⟨by have h1 := h.1; rwa [cross_negP] at h1,
      LeftTurns_negP (b :: c :: t) h.2⟩

theorem option_map_negP_inj {o1 o2 : Option Point}
    (h : o1.map negP = o2.map negP) : o1 = o2 := by
  have h2 := congrArg (Option.map negP) h
  rw [Option.map_map, Option.map_map,
    show negP ∘ negP = id from funext negP_negP, Option.map_id] at h2
  exact h2

theorem sorted_head_lt_last {l : List Point} (hs : l.Pairwise lexLt)
    {a m : Point} (h2 : 2 ≤ l.length) (ha : l.head? = some a)
    (hm : l.getLast? = some m) : lexLt a m := by
  match l, h2, ha, hm, hs with
  | [], h2, _, _, _ => simp at h2
  | [_], h2, _, _, _ => simp at h2
  | a0 :: b0 :: t, _, ha, hm, hs =>
    rw [show (a0 :: b0 :: t).head? = some a0 from rfl, Option.some_inj] at ha
    subst ha
    rw [List.getLast?_cons_cons] at hm
    exact List.rel_of_pairwise_cons hs (List.mem_of_mem_getLast? hm)

theorem two_le_length_of_head_ne_last {l : List Point} {a m : Point}
    (ha : l.head? = some a) (hm : l.getLast? = some m) (hne : a ≠ m) :
    2 ≤ l.length := by
  match l, ha, hm with
  | [], ha, _ => simp at ha
  | [x], ha, hm =>
    rw [show [x].head? = some x from rfl, Option.some_inj] at ha
    rw [show [x].getLast? = some x from rfl, Option.some_inj] at hm
    exact absurd (ha.symm.trans hm) hne
  | _ :: _ :: t, _, _ =>
    rw [List.length_cons, List.length_cons]
    omega

/-- Transfer of the lower-hull facts through the point-negation symmetry:
the upper chain is lexicographically decreasing, strictly turning, and its
edges cover every point of `S` from the other side. -/
theorem upperHull_transfer {S U : List Point}
    (hLH : LowerHull (S.reverse.map negP) (U.map negP)) :
    (∀ x ∈ U, x ∈ S) ∧ U.head? = S.getLast? ∧ U.getLast? = S.head? ∧
      U.Pairwise (fun a b => lexLt b a) ∧ LeftTurns U ∧
      (∀ q ∈ S, Covers U q) := by
  obtain ⟨hmem, hhead, hlast, hpw, hlt, hcov⟩ := hLH
  refine ⟨?_, ?_, ?_, ?_, LeftTurns_negP U hlt, ?_⟩
  · intro x hx
    have hx2 := hmem (negP x) (List.mem_map_of_mem negP hx)
    rw [List.mem_map] at hx2
    obtain ⟨z, hz, hzx⟩ := hx2
    rw [List.mem_reverse] at hz
    rwa [← negP_inj hzx]
  · rw [List.head?_map, List.head?_map, List.head?_reverse] at hhead
    exact option_map_negP_inj hhead
  · rw [List.getLast?_map, List.getLast?_map, List.getLast?_reverse] at hlast
    exact option_map_negP_inj hlast
  · rw [List.pairwise_map] at hpw
    exact hpw.imp (fun h => lexLt_negP.mp h)
  · intro q hq
    exact Covers_negP q U (hcov (negP q) (by
      rw [List.mem_map]
      exact ⟨q, List.mem_reverse.mpr hq, rfl⟩))

/-- Structure of `convex_hull` when the deduplicated sorted input has at
least two points: the result is lower chain plus upper chain, each with its
characteristic ordering, turning and covering properties. -/
theorem hull_structure (points : List Point)
    (h2 : 2 ≤ (sortedDedup points).length) :
    ∃ L U : List Point,
      convex_hull points = L.dropLast ++ U.dropLast ∧
      LowerHull (sortedDedup points) L ∧
      (∀ x ∈ U, x ∈ sortedDedup points) ∧
      U.head? = (sortedDedup points).getLast? ∧
      U.getLast? = (sortedDedup points).head? ∧
      U.Pairwise (fun a b => lexLt b a) ∧
      LeftTurns U ∧
      (∀ q ∈ sortedDedup points, Covers U q) ∧
      2 ≤ L.length ∧ 2 ≤ U.length := by
  have hsort : (sortedDedup points).Pairwise lexLt := sortedDedup_pairwise points
  have hSne : sortedDedup points ≠ [] := by
    intro h; rw [h] at h2; simp at h2
  have hinvL := buildRev_inv (sortedDedup points) hSne hsort
  have hL := lowerHull_of_chainInv hsort hinvL
  have hMsort := pairwise_negP_reverse hsort
  have hMne : (sortedDedup points).reverse.map negP ≠ [] := by
    intro h
    apply hSne
    have hlen := congrArg List.length h
    rw [List.length_map, List.length_reverse] at hlen
    exact List.length_eq_zero.mp hlen
  have hinvM := buildRev_inv ((sortedDedup points).reverse.map negP) hMne hMsort
  have hM := lowerHull_of_chainInv hMsort hinvM
  rw [buildRev_negP, ← List.map_reverse] at hM
  obtain ⟨hmemU, hheadU, hlastU, hpwU, hltU, hcovU⟩ := upperHull_transfer hM
  obtain ⟨a, ha⟩ := Option.isSome_iff_exists.mp (List.head?_isSome.mpr hSne)
  obtain ⟨m, hm⟩ := Option.isSome_iff_exists.mp (List.getLast?_isSome.mpr hSne)
  have ham : a ≠ m := lexLt_ne (sorted_head_lt_last hsort h2 ha hm)
  refine ⟨(buildRev (sortedDedup points)).reverse,
    (buildRev (sortedDedup points).reverse).reverse, ?_, hL, hmemU,
    hheadU, hlastU, hpwU, hltU, hcovU, ?_, ?_⟩
  · have hnot : ¬ (sortedDedup points).length ≤ 1 := by omega
    show convex_hull points = _
    simp only [convex_hull]
    rw [if_neg hnot]
  · exact two_le_length_of_head_ne_last
      (hL.2.1.trans ha) (hL.2.2.1.trans hm) ham
  · exact two_le_length_of_head_ne_last
      (hheadU.trans hm) (hlastU.trans ha) ham.symm

theorem linEdges_mem : ∀ (l : List Point) (e : Segment), e ∈ linEdges l →
    e.1 ∈ l ∧ e.2 ∈ l
  | [], e, h => by simp [linEdges] at h
  | [_], e, h => by simp [linEdges] at h
  | a :: b :: t, e, h => by
    rcases List.mem_cons.mp h with rfl | h2
    · exact ⟨List.mem_cons_self _ _,
        List.mem_cons_of_mem _ (List.mem_cons_self _ _)⟩
    · obtain ⟨h1, h2x⟩ := linEdges_mem (b :: t) e h2
      exact ⟨List.mem_cons_of_mem _ h1, List.mem_cons_of_mem _ h2x⟩

theorem linEdges_pairwise {R : Point → Point → Prop} :
    ∀ {l : List Point}, l.Pairwise R → ∀ {e : Segment},
      e ∈ linEdges l → R e.1 e.2
  | [], _, e, h => by simp [linEdges] at h
  | [_], _, e, h => by simp [linEdges] at h
  | a :: b :: t, hs, e, h => by
    rcases List.mem_cons.mp h with rfl | h2
    · exact List.rel_of_pairwise_cons hs (List.mem_cons_self _ _)
    · exact linEdges_pairwise (List.Pairwise.of_cons hs) h2

theorem mem_dropLast_rel_last {R : Point → Point → Prop} :
    ∀ {l : List Point}, l.Pairwise R → ∀ {m : Point}, l.getLast? = some m →
      ∀ {x : Point}, x ∈ l.dropLast → R x m
  | [], _, m, _, x, hx => by simp at hx
  | [_], _, m, _, x, hx => by simp at hx
  | a0 :: b0 :: t, hs, m, hm, x, hx => by
    rw [List.getLast?_cons_cons] at hm
    rw [List.dropLast_cons₂] at hx
    rcases List.mem_cons.mp hx with rfl | hx2
    · exact List.rel_of_pairwise_cons hs (List.mem_of_mem_getLast? hm)
    · exact mem_dropLast_rel_last (List.Pairwise.of_cons hs) hm hx2

theorem cross_third_param (o a c d : Point) (t : ℚ) :
    cross o a (c.1 + t * (d.1 - c.1), c.2 + t * (d.2 - c.2)) =
      (1 - t) * cross o a c + t * cross o a d := by
  unfold cross; ring

/-- A vertex cannot occur both strictly inside the lower chain and strictly
inside the upper chain: the two chains of the hull are disjoint apart from
their shared extreme endpoints, which `dropLast` removes from exactly one
chain each. -/
theorem hull_disjoint_aux {S L U : List Point}
    (hL : LowerHull S L)
    (hmemU : ∀ x ∈ U, x ∈ S) (hheadU : U.head? = S.getLast?)
    (hlastU : U.getLast? = S.head?)
    (hpwU : U.Pairwise (fun a b => lexLt b a))
    (hltU : LeftTurns U) (hcovU : ∀ q ∈ S, Covers U q)
    {x : Point} (hx1 : x ∈ L.dropLast) (hx2 : x ∈ U.dropLast) : False := by
  have hxL : x ∈ L := (List.dropLast_sublist L).subset hx1
  have hxU : x ∈ U := (List.dropLast_sublist U).subset hx2
  have hLne : L ≠ [] := List.ne_nil_of_mem hxL
  have hUne : U ≠ [] := List.ne_nil_of_mem hxU
  obtain ⟨hmemL, hheadL, hlastL, hpwL, hltL, hcovL⟩ := hL
  obtain ⟨m, hm⟩ := Option.isSome_iff_exists.mp (List.getLast?_isSome.mpr hLne)
  obtain ⟨a, ha2⟩ := Option.isSome_iff_exists.mp (List.getLast?_isSome.mpr hUne)
  have hxm : lexLt x m := mem_dropLast_rel_last hpwL hm hx1
  have hax : lexLt a x := mem_dropLast_rel_last hpwU ha2 hx2
  have hheadLx : L.head? ≠ some x := by
    rw [hheadL, ← hlastU, ha2]
    intro hcon
    rw [Option.some_inj] at hcon
    rw [hcon] at hax
    exact lexLt_irrefl x hax
  have hlastLx : L.getLast? ≠ some x := by
    rw [hm]
    intro hcon
    rw [Option.some_inj] at hcon
    rw [← hcon] at hxm
    exact lexLt_irrefl m hxm
  obtain ⟨w, y, hwy⟩ := triple_of_interior L x hxL hheadLx hlastLx
  have hheadUx : U.head? ≠ some x := by
    rw [hheadU, ← hlastL, hm]
    intro hcon
    rw [Option.some_inj] at hcon
    rw [← hcon] at hxm
    exact lexLt_irrefl m hxm
  have hlastUx : U.getLast? ≠ some x := by
    rw [ha2]
    intro hcon
    rw [Option.some_inj] at hcon
    rw [hcon] at hax
    exact lexLt_irrefl x hax
  obtain ⟨w2, y2, hwy2⟩ := triple_of_interior U x hxU hheadUx hlastUx
  have heL : (x, y) ∈ linEdges L := linTriples_edge_right L w x y hwy
  have heU : (x, y2) ∈ linEdges U := linTriples_edge_right U w2 x y2 hwy2
  have heU1 : (w2, x) ∈ linEdges U := linTriples_edge_left U w2 x y2 hwy2
  have hyS : y ∈ S := hmemL y (linEdges_mem L (x, y) heL).2
  have hy2S : y2 ∈ S := hmemU y2 (linEdges_mem U (x, y2) heU).2
  have hc1 : 0 ≤ cross x y y2 := covers_linEdges L y2 (hcovL y2 hy2S) (x, y) heL
  have hc2 : 0 ≤ cross x y2 y := covers_linEdges U y (hcovU y hyS) (x, y2) heU
  have hzero : cross x y y2 = 0 := by
    have hsw := cross_swap x y y2
    linarith
  have hxy : lexLt x y := linEdges_pairwise hpwL heL
  obtain ⟨t, ht1, ht2⟩ := collinear_param hzero (lexLt_ne hxy)
  have hy2eq : y2 = (x.1 + t * (y.1 - x.1), x.2 + t * (y.2 - x.2)) :=
    Prod.ext ht1 ht2
  have hturn : 0 < cross w2 x y2 := turns_linTriples U hltU (w2, x, y2) hwy2
  have hcov3 : 0 ≤ cross w2 x y := covers_linEdges U y (hcovU y hyS) (w2, x) heU1
  have hlin : cross w2 x y2 = t * cross w2 x y := by
    rw [hy2eq, cross_third_param, cross_self_right]
    ring
  have ht0 : 0 < t := by nlinarith
  have hy2x : lexLt y2 x := linEdges_pairwise hpwU heU
  rcases hy2x with h | ⟨h1, h2⟩
  · rw [ht1] at h
    rcases hxy with hx1' | ⟨hx1', _⟩
    · nlinarith
    · rw [hx1'] at h
      linarith
  · rw [ht1] at h1
    rw [ht2] at h2
    rcases hxy with hx1' | ⟨hx1', hy1'⟩
    · nlinarith
    · nlinarith

/-- C10: every vertex of the list returned by `convex_hull` is an element of
the input collection, and the returned vertices are pairwise distinct. -/
theorem hull_mem_nodup (points : List Point) :
    (∀ v ∈ convex_hull points, v ∈ points) ∧ (convex_hull points).Nodup := by
  by_cases h2 : 2 ≤ (sortedDedup points).length
  · obtain ⟨L, U, hEq, hL, hmemU, hheadU, hlastU, hpwU, hltU, hcovU, _, _⟩ :=
      hull_structure points h2
    constructor
    · intro v hv
      rw [hEq, List.mem_append] at hv
      rcases hv with hv | hv
      · exact (sortedDedup_mem points v).mp
          (hL.1 v ((List.dropLast_sublist L).subset hv))
      · exact (sortedDedup_mem points v).mp
          (hmemU v ((List.dropLast_sublist U).subset hv))
    · rw [hEq, List.nodup_append]
      refine ⟨List.Pairwise.sublist (List.dropLast_sublist L)
          ((hL.2.2.2.1).imp (fun h => lexLt_ne h)),
        List.Pairwise.sublist (List.dropLast_sublist U)
          (hpwU.imp (fun h => (lexLt_ne h).symm)),
        fun a ha1 ha2 =>
          hull_disjoint_aux hL hmemU hheadU hlastU hpwU hltU hcovU ha1 ha2⟩
  · have hsm : convex_hull points = sortedDedup points := by
      simp only [convex_hull]
      rw [if_pos (by omega)]
    rw [hsm]
    exact ⟨fun v hv => (sortedDedup_mem points v).mp hv,
      sortedDedup_nodup points⟩

theorem cross_swap01 (a b c : Point) : cross a b c = -cross b a c := by
  unfold cross; ring

theorem cross_from_end_param (c m q : Point) (t : ℚ) :
    cross m (c.1 + t * (m.1 - c.1), c.2 + t * (m.2 - c.2)) q
      = (t - 1) * cross c m q := by
  unfold cross; ring

theorem cross_from_start_param (a c q : Point) (t : ℚ) :
    cross a (a.1 + t * (c.1 - a.1), a.2 + t * (c.2 - a.2)) q
      = t * cross a c q := by
  unfold cross; ring

theorem linEdges_last : ∀ {l : List Point} {c m : Point},
    l.dropLast.getLast? = some c → l.getLast? = some m → (c, m) ∈ linEdges l
  | [], _, _, hc, _ => by simp at hc
  | [_], _, _, hc, _ => by simp at hc
  | [x, y], c, m, hc, hm => by
    rw [show [x, y].dropLast = [x] from rfl,
      show [x].getLast? = some x from rfl, Option.some_inj] at hc
    rw [show [x, y].getLast? = some y from rfl, Option.some_inj] at hm
    subst hc; subst hm
    exact List.mem_singleton_self _
  | x :: y :: z :: t, c, m, hc, hm => by
    rw [List.dropLast_cons₂,
      getLast?_cons_ne x (by rw [List.dropLast_cons₂]; exact List.cons_ne_nil _ _)]
      at hc
    rw [List.getLast?_cons_cons] at hm
    exact List.mem_cons_of_mem _ (linEdges_last hc hm)

theorem linEdges_head : ∀ {l : List Point} {m u : Point},
    l.head? = some m → l.tail.head? = some u → (m, u) ∈ linEdges l
  | [], _, _, hm, _ => by simp at hm
  | [_], _, _, _, hu => by simp at hu
  | x :: y :: t, m, u, hm, hu => by
    rw [show (x :: y :: t).head? = some x from rfl, Option.some_inj] at hm
    rw [show (x :: y :: t).tail.head? = some y from rfl, Option.some_inj] at hu
    subst hm; subst hu
    exact List.mem_cons_self _ _

theorem dropLast_concat_of_getLast? : ∀ {l : List Point} {m : Point},
    l.getLast? = some m → l.dropLast ++ [m] = l
  | [], _, hm => by simp at hm
  | [x], m, hm => by
    rw [show [x].getLast? = some x from rfl, Option.some_inj] at hm
    subst hm
    rfl
  | x :: y :: t, m, hm => by
    rw [List.getLast?_cons_cons] at hm
    rw [List.dropLast_cons₂, List.cons_append, dropLast_concat_of_getLast? hm]

theorem cons_tail_of_head? : ∀ {l : List Point} {m : Point},
    l.head? = some m → l = m :: l.tail
  | [], _, hm => by simp at hm
  | x :: t, m, hm => by
    rw [show (x :: t).head? = some x from rfl, Option.some_inj] at hm
    subst hm
    rfl

theorem headI_of_head? : ∀ {l : List Point} {a : Point},
    l.head? = some a → l.headI = a
  | [], _, h => by simp at h
  | x :: t, a, h => by
    rw [show (x :: t).head? = some x from rfl, Option.some_inj] at h
    exact h

theorem head?_dropLast_of : ∀ {l : List Point}, 2 ≤ l.length →
    ∀ {a : Point}, l.head? = some a → l.dropLast.head? = some a
  | [], h, _, _ => by simp at h
  | [_], h, _, _ => by simp at h
  | x :: y :: t, _, a, ha => by
    rw [List.dropLast_cons₂]
    exact ha

theorem eq_singleton_of_length1 : ∀ {l : List Point}, l.length = 1 →
    ∀ {a : Point}, l.head? = some a → l = [a]
  | [], h, _, _ => by simp at h
  | [x], _, a, h => by
    rw [show [x].head? = some x from rfl, Option.some_inj] at h
    rw [h]
  | x :: y :: t, h, _, _ => by
    rw [List.length_cons, List.length_cons] at h
    omega

theorem linTriples_of_length3 : ∀ {l : List Point}, 3 ≤ l.length →
    ∃ x y z, (x, y, z) ∈ linTriples l ∧ x ∈ l ∧ y ∈ l ∧ z ∈ l
  | [], h => by simp at h
  | [_], h => by simp at h
  | [_, _], h => by simp at h
  | x :: y :: z :: t, _ =>
    ⟨x, y, z, List.mem_cons_self _ _, by simp, by simp, by simp⟩

/-- A chain with a strict left turn cannot live inside a set of points that
all lie on one line. -/
theorem all_collinear_no_triple {S : List Point} {c d : Point}
    (hcd : c ≠ d) (hall : ∀ q ∈ S, cross c d q = 0)
    {l : List Point} (hsub : ∀ x ∈ l, x ∈ S) (hlt : LeftTurns l)
    (h3 : 3 ≤ l.length) : False := by
  obtain ⟨x, y, z, htr, hx, hy, hz⟩ := linTriples_of_length3 h3
  have h0 : 0 < cross x y z := turns_linTriples l hlt (x, y, z) htr
  obtain ⟨sx, hx1, hx2⟩ := collinear_param (hall x (hsub x hx)) hcd
  obtain ⟨sy, hy1, hy2⟩ := collinear_param (hall y (hsub y hy)) hcd
  have hxe : x = (c.1 + sx * (d.1 - c.1), c.2 + sx * (d.2 - c.2)) :=
    Prod.ext hx1 hx2
  have hye : y = (c.1 + sy * (d.1 - c.1), c.2 + sy * (d.2 - c.2)) :=
    Prod.ext hy1 hy2
  rw [hxe, hye, cross_two_params, hall z (hsub z hz), mul_zero] at h0
  exact lt_irrefl 0 h0

/-- The closed hull walk (the hull followed by its first two vertices) makes
only strict left turns, for hulls of at least three vertices.  The two
junction turns are strict because a collinear junction would force every
input point onto one line, contradicting the existence of a strict turn
inside one of the chains. -/
theorem hull_main (points : List Point)
    (h3 : 3 ≤ (convex_hull points).length) :
    LeftTurns (convex_hull points ++ (convex_hull points).take 2) := by
  have h2 : 2 ≤ (sortedDedup points).length := by
    by_contra hlt
    push_neg at hlt
    have hsm : convex_hull points = sortedDedup points := by
      simp only [convex_hull]
      rw [if_pos (by omega)]
    rw [hsm] at h3
    omega
  obtain ⟨L, U, hEq, hL, hmemU, hheadU, hlastU, hpwU, hltU, hcovU,
    hlen2L, hlen2U⟩ := hull_structure points h2
  obtain ⟨hmemL, hLheadS, hLlastS, hpwL, hltL, hcovL⟩ := hL
  have hSne : sortedDedup points ≠ [] := by
    intro h; rw [h] at h2; simp at h2
  obtain ⟨a, haS⟩ := Option.isSome_iff_exists.mp (List.head?_isSome.mpr hSne)
  obtain ⟨m, hmS⟩ := Option.isSome_iff_exists.mp (List.getLast?_isSome.mpr hSne)
  have hLhead : L.head? = some a := hLheadS.trans haS
  have hLlast : L.getLast? = some m := hLlastS.trans hmS
  have hUhead : U.head? = some m := hheadU.trans hmS
  have hUlast : U.getLast? = some a := hlastU.trans haS
  have hLtne : L.tail ≠ [] := by
    intro h
    have hlen := congrArg List.length h
    rw [List.length_tail, List.length_nil] at hlen
    omega
  have hUtne : U.tail ≠ [] := by
    intro h
    have hlen := congrArg List.length h
    rw [List.length_tail, List.length_nil] at hlen
    omega
  obtain ⟨l1, hl1⟩ := Option.isSome_iff_exists.mp (List.head?_isSome.mpr hLtne)
  obtain ⟨u1, hu1⟩ := Option.isSome_iff_exists.mp (List.head?_isSome.mpr hUtne)
  have hLdne : L.dropLast ≠ [] := by
    intro h
    have hlen := congrArg List.length h
    rw [List.length_dropLast, List.length_nil] at hlen
    omega
  have hUdne : U.dropLast ≠ [] := by
    intro h
    have hlen := congrArg List.length h
    rw [List.length_dropLast, List.length_nil] at hlen
    omega
  obtain ⟨c, hcL⟩ := Option.isSome_iff_exists.mp (List.getLast?_isSome.mpr hLdne)
  obtain ⟨c2, hc2U⟩ := Option.isSome_iff_exists.mp (List.getLast?_isSome.mpr hUdne)
  have hLdec : L.dropLast ++ [m] = L := dropLast_concat_of_getLast? hLlast
  have hUdec : U.dropLast ++ [a] = U := dropLast_concat_of_getLast? hUlast
  have hUcons : U = m :: U.tail := cons_tail_of_head? hUhead
  have hUtail : U.tail = u1 :: U.tail.tail := cons_tail_of_head? hu1
  have hLcons : L = a :: L.tail := cons_tail_of_head? hLhead
  have hLtail : L.tail = l1 :: L.tail.tail := cons_tail_of_head? hl1
  have hlenH : (convex_hull points).length = (L.length - 1) + (U.length - 1) := by
    rw [hEq, List.length_append, List.length_dropLast, List.length_dropLast]
  have hLU3 : 3 ≤ L.length ∨ 3 ≤ U.length := by omega
  have hedge_cm : (c, m) ∈ linEdges L := linEdges_last hcL hLlast
  have hedge_mu : (m, u1) ∈ linEdges U := linEdges_head hUhead hu1
  have hedge_c2a : (c2, a) ∈ linEdges U := linEdges_last hc2U hUlast
  have hedge_al1 : (a, l1) ∈ linEdges L := linEdges_head hLhead hl1
  have hlex_cm : lexLt c m := linEdges_pairwise hpwL hedge_cm
  have hlex_um : lexLt u1 m := linEdges_pairwise hpwU hedge_mu
  have hlex_ac2 : lexLt a c2 := linEdges_pairwise hpwU hedge_c2a
  have hlex_al1 : lexLt a l1 := linEdges_pairwise hpwL hedge_al1
  have hu1S : u1 ∈ sortedDedup points :=
    hmemU u1 (linEdges_mem U (m, u1) hedge_mu).2
  have hl1S : l1 ∈ sortedDedup points :=
    hmemL l1 (linEdges_mem L (a, l1) hedge_al1).2
  have hJ1 : 0 < cross c m u1 := by
    by_contra hng
    push_neg at hng
    have hge : 0 ≤ cross c m u1 :=
      covers_linEdges L u1 (hcovL u1 hu1S) (c, m) hedge_cm
    have hz : cross c m u1 = 0 := le_antisymm hng hge
    obtain ⟨t, ht1, ht2⟩ := collinear_param hz (lexLt_ne hlex_cm)
    have hu1eq : u1 = (c.1 + t * (m.1 - c.1), c.2 + t * (m.2 - c.2)) :=
      Prod.ext ht1 ht2
    have htlt : t < 1 := by
      rcases hlex_um with h | ⟨h1, hy2⟩
      · rw [ht1] at h
        rcases hlex_cm with hx | ⟨hx, _⟩
        · nlinarith
        · have h0 : m.1 - c.1 = 0 := by rw [hx]; ring
          rw [h0] at h
          linarith
      · rw [ht1] at h1
        rw [ht2] at hy2
        rcases hlex_cm with hx | ⟨hx, hy⟩
        · have hprod : t * (m.1 - c.1) = 1 * (m.1 - c.1) := by linarith
          have ht1e : t = 1 :=
            mul_right_cancel₀ (sub_ne_zero.mpr (ne_of_lt hx).symm) hprod
          rw [ht1e] at hy2
          linarith
        · nlinarith
    have hall : ∀ q ∈ sortedDedup points, cross c m q = 0 := by
      intro q hq
      have hA : 0 ≤ cross c m q :=
        covers_linEdges L q (hcovL q hq) (c, m) hedge_cm
      have hB : 0 ≤ cross m u1 q :=
        covers_linEdges U q (hcovU q hq) (m, u1) hedge_mu
      rw [hu1eq, cross_from_end_param] at hB
      have hle : cross c m q ≤ 0 := by nlinarith
      exact le_antisymm hle hA
    rcases hLU3 with h3L | h3U
    · exact all_collinear_no_triple (lexLt_ne hlex_cm) hall hmemL hltL h3L
    · exact all_collinear_no_triple (lexLt_ne hlex_cm) hall hmemU hltU h3U
  have hJ2 : 0 < cross c2 a l1 := by
    by_contra hng
    push_neg at hng
    have hge : 0 ≤ cross c2 a l1 :=
      covers_linEdges U l1 (hcovU l1 hl1S) (c2, a) hedge_c2a
    have hz0 : cross c2 a l1 = 0 := le_antisymm hng hge
    have hz : cross a c2 l1 = 0 := by
      rw [cross_swap01, hz0, neg_zero]
    obtain ⟨t, ht1, ht2⟩ := collinear_param hz (lexLt_ne hlex_ac2)
    have hl1eq : l1 = (a.1 + t * (c2.1 - a.1), a.2 + t * (c2.2 - a.2)) :=
      Prod.ext ht1 ht2
    have ht0 : 0 < t := by
      rcases hlex_al1 with h | ⟨h1, hy2⟩
      · rw [ht1] at h
        rcases hlex_ac2 with hx | ⟨hx, _⟩
        · nlinarith
        · have h0 : c2.1 - a.1 = 0 := by rw [hx]; ring
          rw [h0] at h
          linarith
      · rw [ht1] at h1
        rw [ht2] at hy2
        rcases hlex_ac2 with hx | ⟨hx, hy⟩
        · have hprod : t * (c2.1 - a.1) = 0 * (c2.1 - a.1) := by linarith
          have ht0e : t = 0 :=
            mul_right_cancel₀ (sub_ne_zero.mpr (ne_of_lt hx).symm) hprod
          rw [ht0e] at hy2
          linarith
        · nlinarith
    have hall : ∀ q ∈ sortedDedup points, cross a c2 q = 0 := by
      intro q hq
      have hA : 0 ≤ cross a l1 q :=
        covers_linEdges L q (hcovL q hq) (a, l1) hedge_al1
      have hB : 0 ≤ cross c2 a q :=
        covers_linEdges U q (hcovU q hq) (c2, a) hedge_c2a
      rw [hl1eq, cross_from_start_param] at hA
      have hB2 : cross a c2 q ≤ 0 := by
        have hswap := cross_swap01 a c2 q
        linarith
      have hA2 : 0 ≤ cross a c2 q := by nlinarith
      exact le_antisymm hB2 hA2
    rcases hLU3 with h3L | h3U
    · exact all_collinear_no_triple (lexLt_ne hlex_ac2) hall hmemL hltL h3L
    · exact all_collinear_no_triple (lexLt_ne hlex_ac2) hall hmemU hltU h3U
  have htake : (convex_hull points).take 2 = [a, l1] := by
    rw [hEq]
    rcases hLtt : L.tail.tail with _ | ⟨z, Lrest⟩
    · have hLt2 := hLtail
      rw [hLtt] at hLt2
      have hLeq := hLcons
      rw [hLt2] at hLeq
      have hl1m : l1 = m := by
        have hml := hLlast
        rw [hLeq, List.getLast?_cons_cons,
          show [l1].getLast? = some l1 from rfl, Option.some_inj] at hml
        exact hml
      have hLd : L.dropLast = [a] := by rw [hLeq]; rfl
      have hUeq := hUcons
      rw [hUtail] at hUeq
      rw [hLd, hl1m, hUeq, List.dropLast_cons₂]
      rfl
    · have hLt2 := hLtail
      rw [hLtt] at hLt2
      have hLeq := hLcons
      rw [hLt2] at hLeq
      rw [hLeq, List.dropLast_cons₂, List.dropLast_cons₂]
      rfl
  have hwalk : convex_hull points ++ (convex_hull points).take 2
      = L.dropLast ++ (U ++ [l1]) := by
    rw [htake, hEq, ← hUdec]
    simp [List.append_assoc]
  rw [hwalk]
  have hUl1 : U ++ [l1] = m :: u1 :: (U.tail.tail ++ [l1]) := by
    conv_lhs => rw [hUcons, hUtail]
    rfl
  rw [hUl1]
  refine LeftTurns_join L.dropLast m u1 (U.tail.tail ++ [l1]) ?_ ?_ ?_
  · rw [hLdec]; exact hltL
  · rw [← hUl1, ← hUdec, List.append_assoc]
    refine LeftTurns_join U.dropLast a l1 [] ?_ trivial ?_
    · rw [hUdec]; exact hltU
    · intro z hz
      have hzc : z = c2 := by
        rw [hc2U] at hz
        exact (Option.some_inj.mp hz).symm
      rw [hzc]
      exact hJ2
  · intro z hz
    have hzc : z = c := by
      rw [hcL] at hz
      exact (Option.some_inj.mp hz).symm
    rw [hzc]
    exact hJ1

/-- C7: `convex_hull` keeps only strictly convex vertices: whenever the
returned hull has at least three vertices, every cyclically consecutive
triple of hull vertices makes a strict left turn (so no three consecutive
vertices are collinear); and in particular the hull of the collinear points
(0,0), (1,0), (2,0) is [(0,0), (2,0)], with the middle point excluded. -/
theorem hull_strictly_convex (points : List Point) :
    (3 ≤ (convex_hull points).length →
      ∀ tr ∈ cyclicTriples (convex_hull points),
        0 < cross tr.1 tr.2.1 tr.2.2) ∧
    convex_hull [((0 : ℚ), (0 : ℚ)), (1, 0), (2, 0)] = [(0, 0), (2, 0)] := by
  constructor
  · intro h3 tr htr
    exact turns_linTriples _ (hull_main points h3) tr htr
  · norm_num [convex_hull, sortedDedup, insertPt, lexLt, buildRev, chainStep,
      popWhile, cross]

/-- Witness for C7 at the unit square: its hull has four vertices and every
cyclically consecutive vertex triple turns strictly left. -/
theorem hull_strictly_convex_witness :
    3 ≤ (convex_hull [((0 : ℚ), (0 : ℚ)), (1, 0), (1, 1), (0, 1)]).length ∧
    ∀ tr ∈ cyclicTriples (convex_hull [((0 : ℚ), (0 : ℚ)), (1, 0), (1, 1), (0, 1)]),
      0 < cross tr.1 tr.2.1 tr.2.2 :=
  ⟨by norm_num [convex_hull, sortedDedup, insertPt, lexLt, buildRev, chainStep,
      popWhile, cross],
    (hull_strictly_convex [((0 : ℚ), (0 : ℚ)), (1, 0), (1, 1), (0, 1)]).1
      (by norm_num [convex_hull, sortedDedup, insertPt, lexLt, buildRev,
        chainStep, popWhile, cross])⟩

theorem zip_rotate_linEdges : ∀ (u : List Point) (x : Point), u ≠ [] →
    u.zip (u.tail ++ [x]) = linEdges (u ++ [x])
  | [_], _, _ => rfl
  | y :: z :: t, x, _ => by
    show (y, z) :: (z :: t).zip ((z :: t).tail ++ [x])
      = (y, z) :: linEdges ((z :: t) ++ [x])
    rw [zip_rotate_linEdges (z :: t) x (List.cons_ne_nil _ _)]

theorem hull_edges_eq : ∀ (l : List Point), 3 ≤ l.length →
    hull_edges l = linEdges (l ++ [l.headI])
  | [], h => by simp at h
  | [_], h => by simp at h
  | [_, _], h => by simp at h
  | a :: b :: c :: t, _ =>
    zip_rotate_linEdges (a :: b :: c :: t) a (List.cons_ne_nil _ _)

/-- The shoelace sum along a walk telescopes into a fan of cross products
from any pivot `o`, plus boundary terms at the ends of the walk. -/
theorem shoelace_telescope (o : Point) : ∀ (l : List Point) (x y : Point),
    l.head? = some x → l.getLast? = some y →
    ((linEdges l).map (fun e => e.1.1 * e.2.2 - e.2.1 * e.1.2)).sum
      = ((linEdges l).map (fun e => cross o e.1 e.2)).sum
        + (o.1 * y.2 - o.2 * y.1) - (o.1 * x.2 - o.2 * x.1)
  | [], x, _, hx, _ => by simp at hx
  | [x0], x, y, hx, hy => by
    rw [show [x0].head? = some x0 from rfl, Option.some_inj] at hx
    rw [show [x0].getLast? = some x0 from rfl, Option.some_inj] at hy
    subst hx; subst hy
    show (0 : ℚ) = 0 + (o.1 * x0.2 - o.2 * x0.1) - (o.1 * x0.2 - o.2 * x0.1)
    ring
  | a0 :: b0 :: t, x, y, hx, hy => by
    rw [show (a0 :: b0 :: t).head? = some a0 from rfl, Option.some_inj] at hx
    subst hx
    rw [List.getLast?_cons_cons] at hy
    have hrec := shoelace_telescope o (b0 :: t) b0 y rfl hy
    show (a0.1 * b0.2 - b0.1 * a0.2)
        + ((linEdges (b0 :: t)).map (fun e => e.1.1 * e.2.2 - e.2.1 * e.1.2)).sum
      = cross o a0 b0
        + ((linEdges (b0 :: t)).map (fun e => cross o e.1 e.2)).sum
        + (o.1 * y.2 - o.2 * y.1) - (o.1 * a0.2 - o.2 * a0.1)
    rw [hrec]
    unfold cross
    ring

theorem sum_pos_of_mem : ∀ {l : List ℚ}, (∀ x ∈ l, 0 ≤ x) →
    ∀ {y : ℚ}, y ∈ l → 0 < y → 0 < l.sum
  | [], _, y, hy, _ => absurd hy (List.not_mem_nil y)
  | z :: t, hnn, y, hy, hypos => by
    rw [List.sum_cons]
    have htnn : 0 ≤ t.sum :=
      List.sum_nonneg (fun x hx => hnn x (List.mem_cons_of_mem _ hx))
    rcases List.mem_cons.mp hy with rfl | hyt
    · linarith
    · have hts := sum_pos_of_mem
        (fun x hx => hnn x (List.mem_cons_of_mem _ hx)) hyt hypos
      have hz := hnn z (List.mem_cons_self _ _)
      linarith

/-- C1: no input point lies strictly outside the returned hull (every input
point is weakly to the left of every hull edge), and whenever the hull has
three or more vertices its vertices are in CCW order: the signed area of the
hull polygon is strictly positive. -/
theorem hull_contains_and_ccw (points : List Point) :
    (∀ p ∈ points, ∀ e ∈ hull_edges (convex_hull points),
      0 ≤ cross e.1 e.2 p) ∧
    (3 ≤ (convex_hull points).length →
      0 < signedArea2 (convex_hull points)) := by
  by_cases h2 : 2 ≤ (sortedDedup points).length
  case neg =>
    have hsm : convex_hull points = sortedDedup points := by
      simp only [convex_hull]; rw [if_pos (by omega)]
    push_neg at h2
    constructor
    · intro p hp e he
      rw [hsm] at he
      rcases hsd : sortedDedup points with _ | ⟨x, _ | ⟨z, t⟩⟩
      · rw [hsd] at he; simp [hull_edges] at he
      · rw [hsd] at he; simp [hull_edges] at he
      · rw [hsd, List.length_cons, List.length_cons] at h2; omega
    · intro h3
      rw [hsm] at h3
      omega
  case pos =>
    obtain ⟨L, U, hEq, hL, hmemU, hheadU, hlastU, hpwU, hltU, hcovU,
      hlen2L, hlen2U⟩ := hull_structure points h2
    obtain ⟨hmemL, hLheadS, hLlastS, hpwL, hltL, hcovL⟩ := hL
    have hSne : sortedDedup points ≠ [] := by
      intro h; rw [h] at h2; simp at h2
    obtain ⟨a, haS⟩ := Option.isSome_iff_exists.mp (List.head?_isSome.mpr hSne)
    obtain ⟨m, hmS⟩ := Option.isSome_iff_exists.mp (List.getLast?_isSome.mpr hSne)
    have hLhead : L.head? = some a := hLheadS.trans haS
    have hLlast : L.getLast? = some m := hLlastS.trans hmS
    have hUhead : U.head? = some m := hheadU.trans hmS
    have hUlast : U.getLast? = some a := hlastU.trans haS
    have hLdec : L.dropLast ++ [m] = L := dropLast_concat_of_getLast? hLlast
    have hUdec : U.dropLast ++ [a] = U := dropLast_concat_of_getLast? hUlast
    have hUcons : U = m :: U.tail := cons_tail_of_head? hUhead
    have hwalk : convex_hull points ++ [a] = L.dropLast ++ U := by
      rw [hEq, List.append_assoc, hUdec]
    have hcovW : ∀ q ∈ sortedDedup points,
        Covers (convex_hull points ++ [a]) q := by
      intro q hq
      rw [hwalk, hUcons]
      exact Covers_join L.dropLast m U.tail q
        (by rw [hLdec]; exact hcovL q hq)
        (by rw [← hUcons]; exact hcovU q hq)
    have hlenH : (convex_hull points).length
        = (L.length - 1) + (U.length - 1) := by
      rw [hEq, List.length_append, List.length_dropLast, List.length_dropLast]
    have hHhead : (convex_hull points).head? = some a := by
      rw [hEq, List.head?_append, head?_dropLast_of hlen2L hLhead]
      rfl
    constructor
    · intro p hp e he
      have hpS : p ∈ sortedDedup points := (sortedDedup_mem points p).mpr hp
      by_cases h3 : 3 ≤ (convex_hull points).length
      · rw [hull_edges_eq _ h3, headI_of_head? hHhead] at he
        exact covers_linEdges _ p (hcovW p hpS) e he
      · have hLd : L.dropLast = [a] :=
          eq_singleton_of_length1 (by rw [List.length_dropLast]; omega)
            (head?_dropLast_of hlen2L hLhead)
        have hUd : U.dropLast = [m] :=
          eq_singleton_of_length1 (by rw [List.length_dropLast]; omega)
            (head?_dropLast_of hlen2U hUhead)
        have hHeq : convex_hull points = [a, m] := by
          rw [hEq, hLd, hUd]
          rfl
        rw [hHeq] at he
        have he2 : e = (a, m) := by
          simpa [hull_edges] using he
        have hLeq : L = [a, m] := by
          rw [← hLdec, hLd]
          rfl
        rw [he2]
        have hcov := hcovL p hpS
        rw [hLeq] at hcov
        exact hcov.1
    · intro h3
      have hW : LeftTurns (convex_hull points ++ (convex_hull points).take 2) :=
        hull_main points h3
      have hHtne : (convex_hull points).tail ≠ [] := by
        intro h
        have hlen := congrArg List.length h
        rw [List.length_tail, List.length_nil] at hlen
        omega
      have hHttne : (convex_hull points).tail.tail ≠ [] := by
        intro h
        have hlen := congrArg List.length h
        rw [List.length_tail, List.length_tail, List.length_nil] at hlen
        omega
      obtain ⟨h1, hh1⟩ :=
        Option.isSome_iff_exists.mp (List.head?_isSome.mpr hHtne)
      obtain ⟨hs2, hh2⟩ :=
        Option.isSome_iff_exists.mp (List.head?_isSome.mpr hHttne)
      have hHfull := cons_tail_of_head? hHhead
      rw [cons_tail_of_head? hh1] at hHfull
      rw [cons_tail_of_head? hh2] at hHfull
      have haMem : a ∈ sortedDedup points := by
        rw [cons_tail_of_head? haS]
        exact List.mem_cons_self _ _
      have hedges : hull_edges (convex_hull points)
          = linEdges (convex_hull points ++ [a]) := by
        rw [hull_edges_eq _ h3, headI_of_head? hHhead]
      have hWhead : (convex_hull points ++ [a]).head? = some a := by
        rw [List.head?_append, hHhead]
        rfl
      have hWlast : (convex_hull points ++ [a]).getLast? = some a :=
        List.getLast?_concat _
      have htel := shoelace_telescope a (convex_hull points ++ [a]) a a
        hWhead hWlast
      have hnn : ∀ x ∈ ((linEdges (convex_hull points ++ [a])).map
          (fun e => cross a e.1 e.2)), 0 ≤ x := by
        intro x hx
        rw [List.mem_map] at hx
        obtain ⟨e, he, hex⟩ := hx
        have hcc : 0 ≤ cross e.1 e.2 a :=
          covers_linEdges _ a (hcovW a haMem) e he
        rw [← hex, cross_cyclic]
        exact hcc
      have htriple : (a, h1, hs2) ∈ linTriples
          (convex_hull points ++ (convex_hull points).take 2) := by
        rw [hHfull]
        exact List.mem_cons_self _ _
      have hstrict : 0 < cross a h1 hs2 :=
        turns_linTriples _ hW (a, h1, hs2) htriple
      have hedge12 : (h1, hs2) ∈ linEdges (convex_hull points ++ [a]) := by
        rw [hHfull]
        exact List.mem_cons_of_mem _ (List.mem_cons_self _ _)
      have hmm : cross a h1 hs2 ∈ ((linEdges (convex_hull points ++ [a])).map
          (fun e => cross a e.1 e.2)) := by
        have hmap := List.mem_map_of_mem
          (fun e : Segment => cross a e.1 e.2) hedge12
        simpa using hmap
      have hsumpos : 0 < ((linEdges (convex_hull points ++ [a])).map
          (fun e => cross a e.1 e.2)).sum :=
        sum_pos_of_mem hnn hmm hstrict
      simp only [signedArea2]
      rw [hedges, htel]
      linarith

/-- Witness for C1 at the unit square with the input point (0,0): it lies
weakly left of every hull edge and the four-vertex hull has positive signed
area. -/
theorem hull_contains_and_ccw_witness :
    ((0 : ℚ), (0 : ℚ)) ∈ [((0 : ℚ), (0 : ℚ)), (1, 0), (1, 1), (0, 1)] ∧
    (∀ e ∈ hull_edges (convex_hull [((0 : ℚ), (0 : ℚ)), (1, 0), (1, 1), (0, 1)]),
      0 ≤ cross e.1 e.2 ((0 : ℚ), (0 : ℚ))) ∧
    3 ≤ (convex_hull [((0 : ℚ), (0 : ℚ)), (1, 0), (1, 1), (0, 1)]).length ∧
    0 < signedArea2 (convex_hull [((0 : ℚ), (0 : ℚ)), (1, 0), (1, 1), (0, 1)]) :=
  ⟨by norm_num,
    (hull_contains_and_ccw [((0 : ℚ), (0 : ℚ)), (1, 0), (1, 1), (0, 1)]).1
      ((0 : ℚ), (0 : ℚ)) (by norm_num),
    by norm_num [convex_hull, sortedDedup, insertPt, lexLt, buildRev,
      chainStep, popWhile, cross],
    (hull_contains_and_ccw [((0 : ℚ), (0 : ℚ)), (1, 0), (1, 1), (0, 1)]).2
      (by norm_num [convex_hull, sortedDedup, insertPt, lexLt, buildRev,
        chainStep, popWhile, cross])⟩

theorem eq_singleton_of_head_last : ∀ {l : List Point},
    l.Pairwise lexLt → ∀ {x : Point}, l.head? = some x →
    l.getLast? = some x → l = [x]
  | [], _, _, hh, _ => by simp at hh
  | [z], _, x, hh, _ => by
    rw [show [z].head? = some z from rfl, Option.some_inj] at hh
    rw [hh]
  | z :: w :: t, hpw, x, hh, hl => by
    rw [show (z :: w :: t).head? = some z from rfl, Option.some_inj] at hh
    subst hh
    rw [List.getLast?_cons_cons] at hl
    exact absurd
      (List.rel_of_pairwise_cons hpw (List.mem_of_mem_getLast? hl))
      (lexLt_irrefl _)

/-- The jump lemma: two covering convex chains leaving the same point `p`
cannot have different next vertices with `x` strictly before `y`; the
two chains would squeeze `x`, `y` and `p` onto one line and the strict turn
of the first chain at `x` would then point against its own coverage. -/
theorem chain_no_jump {S : List Point} {p x y : Point} {C D : List Point}
    (hxS : x ∈ S) (hyS : y ∈ S)
    (hCpw : (p :: x :: C).Pairwise lexLt)
    (hClt : LeftTurns (p :: x :: C))
    (hCcov : ∀ q ∈ S, Covers (p :: x :: C) q)
    (hDcov : ∀ q ∈ S, Covers (p :: y :: D) q)
    (hCend : ∀ mm : Point, (p :: x :: C).getLast? = some mm →
      y = mm ∨ lexLt y mm)
    (hxy : lexLt x y) : False := by
  have hpx : lexLt p x := List.rel_of_pairwise_cons hCpw (List.mem_cons_self _ _)
  have hpy : lexLt p y := lexLt_trans hpx hxy
  have hc1 : 0 ≤ cross p x y := (hCcov y hyS).1
  have hc2 : 0 ≤ cross p y x := (hDcov x hxS).1
  have hz : cross p y x = 0 := by
    have hsw := cross_swap p x y
    linarith
  obtain ⟨t, ht1, ht2⟩ := collinear_param hz (lexLt_ne hpy)
  have ht0 : 0 < t := by
    rcases hpx with h | ⟨h1, h2⟩
    · rw [ht1] at h
      rcases hpy with hx1 | ⟨hx1, hy1⟩
      · nlinarith
      · have h0 : y.1 - p.1 = 0 := by rw [hx1]; ring
        rw [h0] at h
        linarith
    · rw [ht1] at h1
      rw [ht2] at h2
      rcases hpy with hx1 | ⟨hx1, hy1⟩
      · have hprod : t * (y.1 - p.1) = 0 * (y.1 - p.1) := by linarith
        have ht0e : t = 0 :=
          mul_right_cancel₀ (sub_ne_zero.mpr (ne_of_lt hx1).symm) hprod
        rw [ht0e] at h2
        linarith
      · nlinarith
  have htlt : t < 1 := by
    rcases hxy with h | ⟨h1, h2⟩
    · rw [ht1] at h
      rcases hpy with hx1 | ⟨hx1, hy1⟩
      · nlinarith
      · have h0 : y.1 - p.1 = 0 := by rw [hx1]; ring
        rw [h0] at h
        linarith
    · rw [ht1] at h1
      rw [ht2] at h2
      rcases hpy with hx1 | ⟨hx1, hy1⟩
      · have hprod : t * (y.1 - p.1) = 1 * (y.1 - p.1) := by linarith
        have ht1e : t = 1 :=
          mul_right_cancel₀ (sub_ne_zero.mpr (ne_of_lt hx1).symm) hprod
        rw [ht1e] at h2
        linarith
      · nlinarith
  match C, hClt, hCpw, hCcov, hCend with
  | [], _, _, _, hCend =>
    rcases hCend x rfl with heq | hyx
    · rw [heq] at hxy
      exact lexLt_irrefl x hxy
    · exact lexLt_asymm hxy hyx
  | x2 :: C2, hClt, _, hCcov, _ =>
    have hturn : 0 < cross p x x2 := hClt.1
    have hcov2 : 0 ≤ cross x x2 y := (hCcov y hyS).2.1
    have htne : t ≠ 0 := ne_of_gt ht0
    have hr1 : y.1 = p.1 + 1/t * (x.1 - p.1) := by
      rw [ht1]
      field_simp
    have hr2 : y.2 = p.2 + 1/t * (x.2 - p.2) := by
      rw [ht2]
      field_simp
    have hyeq : y = (p.1 + 1/t * (x.1 - p.1), p.2 + 1/t * (x.2 - p.2)) :=
      Prod.ext hr1 hr2
    rw [hyeq, cross_third_param, cross_self_13] at hcov2
    have hcyc := cross_cyclic p x x2
    rw [← hcyc] at hcov2
    have hrgt : 1 < 1/t := one_lt_one_div ht0 htlt
    nlinarith

/-- Two covering convex chains over the same point set, with the same first
and last vertices, are equal. -/
theorem lowerHull_unique_aux {S : List Point} (hs : S.Pairwise lexLt) :
    ∀ (X Y : List Point),
      (∀ v ∈ X, v ∈ S) → (∀ v ∈ Y, v ∈ S) →
      X.Pairwise lexLt → Y.Pairwise lexLt →
      LeftTurns X → LeftTurns Y →
      (∀ q ∈ S, Covers X q) → (∀ q ∈ S, Covers Y q) →
      X.head? = Y.head? → X.getLast? = Y.getLast? →
      X ≠ [] → X = Y
  | [], _, _, _, _, _, _, _, _, _, _, _, hXne => absurd rfl hXne
  | [x], Y, _, _, _, hYpw, _, _, _, _, hhead, hlast, _ => by
    have hYh : Y.head? = some x := by rw [← hhead]; rfl
    have hYl : Y.getLast? = some x := by rw [← hlast]; rfl
    exact (eq_singleton_of_head_last hYpw hYh hYl).symm
  | x :: x2 :: X2, Y, hXmem, hYmem, hXpw, hYpw, hXlt, hYlt, hXcov, hYcov,
      hhead, hlast, _ => by
    have hYcons : Y = x :: Y.tail := by
      apply cons_tail_of_head?
      rw [← hhead]
      rfl
    have hYtne : Y.tail ≠ [] := by
      intro h
      rw [h] at hYcons
      have hXl : (x :: x2 :: X2).getLast? = some x := by
        rw [hlast, hYcons]
        rfl
      have hsing := eq_singleton_of_head_last hXpw rfl hXl
      simp at hsing
    obtain ⟨y2, hy2⟩ := Option.isSome_iff_exists.mp (List.head?_isSome.mpr hYtne)
    have hYfull : Y = x :: y2 :: Y.tail.tail := by
      have h1 := hYcons
      rw [cons_tail_of_head? hy2] at h1
      exact h1
    have hx2S : x2 ∈ S := hXmem x2 (by simp)
    have hy2S : y2 ∈ S := hYmem y2 (by rw [hYfull]; simp)
    have hx2y2 : x2 = y2 := by
      by_contra hne2
      rcases lexLt_total hne2 with hlt | hlt
      · refine @chain_no_jump S x x2 y2 X2 Y.tail.tail hx2S hy2S hXpw hXlt hXcov ?_ ?_ hlt
        · intro q hq
          rw [← hYfull]
          exact hYcov q hq
        · intro mm hmm
          have hYl : Y.getLast? = some mm := by rw [← hlast]; exact hmm
          exact sorted_getLast_max hYpw hYl (by rw [hYfull]; simp)
      · refine @chain_no_jump S x y2 x2 Y.tail.tail X2 hy2S hx2S ?_ ?_ ?_ hXcov ?_ hlt
        · have hp := hYpw
          rw [hYfull] at hp
          exact hp
        · have hp := hYlt
          rw [hYfull] at hp
          exact hp
        · intro q hq
          have hp := hYcov q hq
          rw [hYfull] at hp
          exact hp
        · intro mm hmm
          have hXl : (x :: x2 :: X2).getLast? = some mm := by
            rw [hlast]
            conv_lhs => rw [hYfull]
            exact hmm
          exact sorted_getLast_max hXpw hXl (by simp)
    subst hx2y2
    have hYtail : ∀ v ∈ x2 :: Y.tail.tail, v ∈ Y := by
      intro v hv
      rw [hYfull]
      exact List.mem_cons_of_mem _ hv
    have hrec := lowerHull_unique_aux hs (x2 :: X2) (x2 :: Y.tail.tail)
      (fun v hv => hXmem v (List.mem_cons_of_mem _ hv))
      (fun v hv => hYmem v (hYtail v hv))
      (List.Pairwise.of_cons hXpw)
      (by
        have hp := hYpw
        rw [hYfull] at hp
        exact List.Pairwise.of_cons hp)
      (LeftTurns_tail hXlt)
      (by
        have hp := hYlt
        rw [hYfull] at hp
        exact LeftTurns_tail hp)
      (fun q hq => Covers_tail (hXcov q hq))
      (fun q hq => by
        have hp := hYcov q hq
        rw [hYfull] at hp
        exact Covers_tail hp)
      rfl
      (by
        have h1 := hlast
        rw [List.getLast?_cons_cons] at h1
        rw [h1]
        conv_lhs => rw [hYfull]
        rw [List.getLast?_cons_cons])
      (List.cons_ne_nil _ _)
    rw [hYfull]
    exact congrArg (List.cons x) hrec

theorem lowerHull_unique {S X Y : List Point} (hs : S.Pairwise lexLt)
    (hX : LowerHull S X) (hY : LowerHull S Y) (hSne : S ≠ []) : X = Y := by
  obtain ⟨hXm, hXh, hXl, hXpw, hXlt, hXcov⟩ := hX
  obtain ⟨hYm, hYh, hYl, hYpw, hYlt, hYcov⟩ := hY
  have hXne : X ≠ [] := by
    intro h
    rw [h] at hXh
    obtain ⟨s0, hs0⟩ := Option.isSome_iff_exists.mp (List.head?_isSome.mpr hSne)
    rw [hs0] at hXh
    simp at hXh
  exact lowerHull_unique_aux hs X Y hXm hYm hXpw hYpw hXlt hYlt hXcov hYcov
    (hXh.trans hYh.symm) (hXl.trans hYl.symm) hXne

/-- Converse transfer: upper-chain facts over `S` produce a lower hull of
the negated reversed point list. -/
theorem upperHull_intro {S U : List Point}
    (hmem : ∀ x ∈ U, x ∈ S) (hhead : U.head? = S.getLast?)
    (hlast : U.getLast? = S.head?)
    (hpw : U.Pairwise (fun a b => lexLt b a))
    (hlt : LeftTurns U) (hcov : ∀ q ∈ S, Covers U q) :
    LowerHull (S.reverse.map negP) (U.map negP) := by
  have hUU : (U.map negP).map negP = U := by
    rw [List.map_map, show negP ∘ negP = id from funext negP_negP, List.map_id]
  refine ⟨?_, ?_, ?_, ?_, ?_, ?_⟩
  · intro x hx
    rw [List.mem_map] at hx
    obtain ⟨z, hz, hzx⟩ := hx
    rw [List.mem_map]
    exact ⟨z, List.mem_reverse.mpr (hmem z hz), hzx⟩
  · rw [List.head?_map, List.head?_map, List.head?_reverse, hhead]
  · rw [List.getLast?_map, List.getLast?_map, List.getLast?_reverse, hlast]
  · rw [List.pairwise_map]
    exact hpw.imp (fun h => lexLt_negP.mpr h)
  · apply LeftTurns_negP
    rw [hUU]
    exact hlt
  · intro q hq
    rw [List.mem_map] at hq
    obtain ⟨z, hz, hzq⟩ := hq
    rw [List.mem_reverse] at hz
    rw [← hzq]
    apply Covers_negP (negP z) (U.map negP)
    rw [hUU, negP_negP]
    exact hcov z hz

/-- C8: `convex_hull` is idempotent on its own output: rerunning it on a
hull returns the hull unchanged, as an exact list equality. -/
theorem hull_idempotent (points : List Point) :
    convex_hull (convex_hull points) = convex_hull points := by
  by_cases h2 : 2 ≤ (sortedDedup points).length
  case neg =>
    have hsm : convex_hull points = sortedDedup points := by
      simp only [convex_hull]; rw [if_pos (by omega)]
    push_neg at h2
    rcases hsd : sortedDedup points with _ | ⟨x, _ | ⟨z, t⟩⟩
    · rw [hsm, hsd]
      rfl
    · rw [hsm, hsd]
      rfl
    · rw [hsd, List.length_cons, List.length_cons] at h2
      omega
  case pos =>
    obtain ⟨L, U, hEq, hL, hmemU, hheadU, hlastU, hpwU, hltU, hcovU,
      hlen2L, hlen2U⟩ := hull_structure points h2
    obtain ⟨hmemL, hLheadS, hLlastS, hpwL, hltL, hcovL⟩ := hL
    have hsort := sortedDedup_pairwise points
    have hSne : sortedDedup points ≠ [] := by
      intro h; rw [h] at h2; simp at h2
    obtain ⟨a, haS⟩ := Option.isSome_iff_exists.mp (List.head?_isSome.mpr hSne)
    obtain ⟨m, hmS⟩ := Option.isSome_iff_exists.mp (List.getLast?_isSome.mpr hSne)
    have hLhead : L.head? = some a := hLheadS.trans haS
    have hLlast : L.getLast? = some m := hLlastS.trans hmS
    have hUhead : U.head? = some m := hheadU.trans hmS
    have hUlast : U.getLast? = some a := hlastU.trans haS
    have hLdec : L.dropLast ++ [m] = L := dropLast_concat_of_getLast? hLlast
    have hUdec : U.dropLast ++ [a] = U := dropLast_concat_of_getLast? hUlast
    have ham : a ≠ m := lexLt_ne (sorted_head_lt_last hsort h2 haS hmS)
    -- a and m are hull vertices
    have haH : a ∈ convex_hull points := by
      rw [hEq]
      apply List.mem_append_left
      rw [cons_tail_of_head? (head?_dropLast_of hlen2L hLhead)]
      exact List.mem_cons_self _ _
    have hmH : m ∈ convex_hull points := by
      rw [hEq]
      apply List.mem_append_right
      rw [cons_tail_of_head? (head?_dropLast_of hlen2U hUhead)]
      exact List.mem_cons_self _ _
    -- every hull vertex is an input vertex of the rerun, and lies in S
    have hHsubS : ∀ v ∈ convex_hull points, v ∈ sortedDedup points := by
      intro v hv
      rw [hEq, List.mem_append] at hv
      rcases hv with hv | hv
      · exact hmemL v ((List.dropLast_sublist L).subset hv)
      · exact hmemU v ((List.dropLast_sublist U).subset hv)
    have hS'mem : ∀ v, v ∈ sortedDedup (convex_hull points) ↔
        v ∈ convex_hull points := fun v => sortedDedup_mem _ v
    have hsort2 := sortedDedup_pairwise (convex_hull points)
    have haS2 : a ∈ sortedDedup (convex_hull points) := (hS'mem a).mpr haH
    have hmS2 : m ∈ sortedDedup (convex_hull points) := (hS'mem m).mpr hmH
    have h2b : 2 ≤ (sortedDedup (convex_hull points)).length := by
      rcases hsd : sortedDedup (convex_hull points) with _ | ⟨s0, _ | ⟨s1, st⟩⟩
      · rw [hsd] at haS2; simp at haS2
      · rw [hsd, List.mem_singleton] at haS2 hmS2
        exact absurd (haS2.trans hmS2.symm) ham
      · rw [List.length_cons, List.length_cons]
        omega
    -- head and last of the rerun input
    have hS2ne : sortedDedup (convex_hull points) ≠ [] := by
      intro h; rw [h] at h2b; simp at h2b
    obtain ⟨a2, ha2⟩ :=
      Option.isSome_iff_exists.mp (List.head?_isSome.mpr hS2ne)
    obtain ⟨m2, hm2⟩ :=
      Option.isSome_iff_exists.mp (List.getLast?_isSome.mpr hS2ne)
    have ha2a : a2 = a := by
      have ha2mem : a2 ∈ sortedDedup (convex_hull points) := by
        rw [cons_tail_of_head? ha2]
        exact List.mem_cons_self _ _
      have ha2S : a2 ∈ sortedDedup points := hHsubS a2 ((hS'mem a2).mp ha2mem)
      rcases sorted_head_min hsort2 ha2 haS2 with h | h
      · exact h.symm
      · rcases sorted_head_min hsort haS ha2S with h3 | h3
        · exact h3
        · exact absurd h3 (lexLt_asymm h)
    have hm2m : m2 = m := by
      have hm2mem : m2 ∈ sortedDedup (convex_hull points) :=
        List.mem_of_mem_getLast? hm2
      have hm2S : m2 ∈ sortedDedup points := hHsubS m2 ((hS'mem m2).mp hm2mem)
      rcases sorted_getLast_max hsort2 hm2 hmS2 with h | h
      · exact h.symm
      · rcases sorted_getLast_max hsort hmS hm2S with h3 | h3
        · exact h3
        · exact absurd h3 (lexLt_asymm h)
    rw [ha2a] at ha2
    rw [hm2m] at hm2
    have hL' : LowerHull (sortedDedup (convex_hull points)) L := by
      refine ⟨?_, ?_, ?_, hpwL, hltL, ?_⟩
      · intro v hv
        apply (hS'mem v).mpr
        rw [hEq]
        rw [← hLdec, List.mem_append] at hv
        rcases hv with hv | hv
        · exact List.mem_append_left _ hv
        · rw [List.mem_singleton] at hv
          subst hv
          apply List.mem_append_right
          rw [cons_tail_of_head? (head?_dropLast_of hlen2U hUhead)]
          exact List.mem_cons_self _ _
      · rw [hLhead, ha2]
      · rw [hLlast, hm2]
      · intro q hq
        exact hcovL q (hHsubS q ((hS'mem q).mp hq))
    have hU' : LowerHull ((sortedDedup (convex_hull points)).reverse.map negP)
        (U.map negP) := by
      apply upperHull_intro
      · intro v hv
        apply (hS'mem v).mpr
        rw [hEq]
        rw [← hUdec, List.mem_append] at hv
        rcases hv with hv | hv
        · exact List.mem_append_right _ hv
        · rw [List.mem_singleton] at hv
          subst hv
          apply List.mem_append_left
          rw [cons_tail_of_head? (head?_dropLast_of hlen2L hLhead)]
          exact List.mem_cons_self _ _
      · rw [hUhead, hm2]
      · rw [hUlast, ha2]
      · exact hpwU
      · exact hltU
      · intro q hq
        exact hcovU q (hHsubS q ((hS'mem q).mp hq))
    obtain ⟨L2, U2, hEq2, hL2, hmemU2, hheadU2, hlastU2, hpwU2, hltU2, hcovU2,
      hlen2L2, hlen2U2⟩ := hull_structure (convex_hull points) h2b
    have hLeq : L2 = L := lowerHull_unique hsort2 hL2 hL' hS2ne
    have hU2' : LowerHull ((sortedDedup (convex_hull points)).reverse.map negP)
        (U2.map negP) :=
      upperHull_intro hmemU2 hheadU2 hlastU2 hpwU2 hltU2 hcovU2
    have hMsort2 := pairwise_negP_reverse hsort2
    have hMne : (sortedDedup (convex_hull points)).reverse.map negP ≠ [] := by
      intro h
      apply hS2ne
      have hlen := congrArg List.length h
      rw [List.length_map, List.length_reverse, List.length_nil] at hlen
      exact List.length_eq_zero.mp hlen
    have hUeqm : U2.map negP = U.map negP :=
      lowerHull_unique hMsort2 hU2' hU' hMne
    have hUeq : U2 = U := by
      have hcg := congrArg (List.map negP) hUeqm
      rwa [List.map_map, List.map_map,
        show negP ∘ negP = id from funext negP_negP,
        List.map_id, List.map_id] at hcg
    rw [hEq2, hLeq, hUeq, ← hEq]

end BOD
